import Mathlib

/-!
# Verification of the beshalach summary/content matching scripts

Shallow embedding, over `List Char`, of the text-processing and matching
functions of the repository (parse_beshalach_v7/v8/v10.py,
parse_summaries_to_content.py, ocr_summaries_index.py, ocr_retry_failed.py),
together with theorems settling the frozen claims about them.

Strings are modelled as `List Char`; Python's substring test `x in y` is the
list-infix relation `x <:+: y`; Python floats used for heuristic scores are
modelled as exact rationals `ℚ`.
-/
set_option maxHeartbeats 1000000
/-! ## Basic character classes and string helpers -/
/-- The set of characters matched by Python's regex class `\s` (and stripped by
`str.strip`) in unicode mode. -/
def pyIsSpace (c : Char) : Bool :=
  [' ', '\t', '\n', '\r', '\x0b', '\x0c',
   '\x1c', '\x1d', '\x1e', '\x1f', '\x85', '\xa0',
   ' ', ' ', ' ', ' ', ' ', ' ', ' ',
   ' ', ' ', ' ', ' ', ' ',
   ' ', ' ', ' ', ' ', '　'].contains c

/-- Hebrew letter range `[א-ת]` (U+05D0 to U+05EA), as used in the scripts'
regexes. -/
def isHebrewLetter (c : Char) : Bool :=
  0x5D0 ≤ c.toNat && c.toNat ≤ 0x5EA

/-- Nikud/cantillation range U+0591 to U+05C7 removed by
`normalize_text` (parse_summaries_to_content.py line 63). -/
def isNikud (c : Char) : Bool :=
  0x591 ≤ c.toNat && c.toNat ≤ 0x5C7

/-- The punctuation class `[.,;:!?\-–—]` replaced by a space in
`normalize_text` (parse_summaries_to_content.py line 64). -/
def isPunctDash (c : Char) : Bool :=
  c = '.' || c = ',' || c = ';' || c = ':' || c = '!' || c = '?' ||
  c = '-' || c = '–' || c = '—'

/-- Model of `re.sub(r'\s+', ' ', text)`: every maximal run of whitespace
characters is replaced by a single space.  The boolean argument records whether
the previous character belonged to a whitespace run. -/
def collapseWs (prevSpace : Bool) : List Char → List Char
  | [] => []
  | c :: cs =>
    if pyIsSpace c then
      (if prevSpace then collapseWs true cs else ' ' :: collapseWs true cs)
    else c :: collapseWs false cs

/-- Remove trailing whitespace characters (the right half of `str.strip`). -/
def stripEnd : List Char → List Char
  | [] => []
  | c :: cs =>
    let r := stripEnd cs
    if r = [] && pyIsSpace c then [] else c :: r

/-- Model of Python `str.strip()`. -/
def pyStrip (l : List Char) : List Char :=
  stripEnd (l.dropWhile pyIsSpace)

/-- `normalize_text` from parse_summaries_to_content.py (lines 61-67):
remove nikud, replace punctuation/dashes by spaces, collapse whitespace runs,
strip both ends. -/
def normalize_text (l : List Char) : List Char :=
  pyStrip (collapseWs false
    ((l.filter (fun c => !isNikud c)).map (fun c => if isPunctDash c then ' ' else c)))

/-! ## Facts about `normalize_text` (claim C10) -/
/-- Adjacent characters of a normalized string are never both whitespace. -/
def NoTwoWs (l : List Char) : Prop :=
  l.Chain' (fun a b => ¬(pyIsSpace a = true ∧ pyIsSpace b = true))

/-- Characterization of the strings produced by `normalize_text`: no nikud, no
replaced punctuation, whitespace only as single interior plain spaces. -/
def CleanStr (l : List Char) : Prop :=
  (∀ c ∈ l, isNikud c = false ∧ isPunctDash c = false ∧ (pyIsSpace c = true → c = ' ')) ∧
  NoTwoWs l ∧
  (∀ c, l.head? = some c → pyIsSpace c = false) ∧
  (∀ c, l.getLast? = some c → pyIsSpace c = false)

/-! ## Hebrew word extraction (regex `[א-ת]{k,}` runs) -/
/-- Worker computing the maximal runs of Hebrew letters of a string (the
non-overlapping matches of `[א-ת]+`); `cur` is the reversed current run. -/
def hebrewRunsGo (cur : List Char) : List Char → List (List Char)
  | [] => if cur = [] then [] else [cur.reverse]
  | c :: cs =>
    if isHebrewLetter c then hebrewRunsGo (c :: cur) cs
    else if cur = [] then hebrewRunsGo [] cs
    else cur.reverse :: hebrewRunsGo [] cs

/-- The maximal runs of Hebrew letters of a string, in order. -/
def hebrewRuns (l : List Char) : List (List Char) := hebrewRunsGo [] l

/-- `get_hebrew_words` from parse_beshalach_v10.py (lines 14-16): the set of
regex matches of `[א-ת]{3,}` (modelled as a first-occurrence deduplicated
list). -/
def get_hebrew_words (l : List Char) : List (List Char) :=
  ((hebrewRuns l).filter (fun w => 3 ≤ w.length)).dedup

/-! ## Data model of the summary/passage records -/
/-- A summary-index entry (the dicts built by `extract_summaries_from_v2` in
v10, and their analogues in v7/v8). -/
structure Summary where
  id : Nat
  sefer : List Char
  verse : List Char
  summary : List Char
  page : List Char
  keywords : List (List Char)
deriving DecidableEq

/-- A full-text passage record (the dicts built by `extract_all_full_texts` in
v10, and their analogues in v7/v8). -/
structure FullText where
  sefer : List Char
  verse : List Char
  text : List Char
  text_clean : List Char
  keywords : List (List Char)
  used : Bool
deriving DecidableEq

instance : Inhabited FullText := ⟨⟨[], [], [], [], [], false⟩⟩

/-- A `match_all` result record: `{'summary': ..., 'full_text': ..., 'score': ...}`. -/
structure MatchEntry where
  summary : Summary
  full_text : Option FullText
  score : ℚ
deriving DecidableEq

/-! ## v10 scoring and matching (parse_beshalach_v10.py) -/
/-- v10 verse normalization inside `find_best_match` (lines 159-160):
`re.sub(r'[\s\-]', '', v)`. -/
def normVerse (v : List Char) : List Char :=
  v.filter (fun c => !(pyIsSpace c || c = '-'))

/-- The score `find_best_match` (v10 lines 155-186) assigns to one candidate
passage: verse comparison points, keyword containment ratio scaled by 60, and
key-phrase containment ratio scaled by 40. -/
def scoreV10 (s : Summary) (ft : FullText) : ℚ :=
  let sv := normVerse s.verse
  let fv := normVerse ft.verse
  let verseScore : ℚ :=
    if sv = fv then 100
    else if sv <:+: fv then 80
    else if fv <:+: sv then 70
    else if 3 < sv.length ∧ 3 < fv.length then
      (if sv.take 4 = fv.take 4 then 50
       else if sv.take 3 = fv.take 3 then 30 else 0)
    else 0
  let contentScore : ℚ :=
    if s.keywords ≠ [] then
      (((s.keywords.filter (fun w => w <:+: ft.text_clean.take 600)).length : ℚ)
        / (s.keywords.length : ℚ)) * 60
    else 0
  let keyPhrases := ((hebrewRuns s.summary).filter (fun w => 4 ≤ w.length)).take 10
  let phraseScore : ℚ :=
    if keyPhrases ≠ [] then
      (((keyPhrases.filter (fun p => p <:+: ft.text_clean.take 500)).length : ℚ)
        / (keyPhrases.length : ℚ)) * 40
    else 0
  verseScore + contentScore + phraseScore

/-- The selection loop shared by the three matchers: scan candidates in
order, skip consumed ones, keep the first strictly greater score
(`if score > best_score`). -/
def scanBestGo {α : Type} (score : α → ℚ) (skip : Nat → α → Bool) :
    Nat → List α → Option Nat × ℚ → Option Nat × ℚ
  | _, [], st => st
  | i, ft :: fts, (bi, bs) =>
    if skip i ft then scanBestGo score skip (i+1) fts (bi, bs)
    else if bs < score ft then scanBestGo score skip (i+1) fts (some i, score ft)
    else scanBestGo score skip (i+1) fts (bi, bs)

/-- Run the selection loop from index 0 with no best candidate. -/
def scanBest {α : Type} (score : α → ℚ) (skip : Nat → α → Bool) (fts : List α) :
    Option Nat × ℚ :=
  scanBestGo score skip 0 fts (none, 0)

/-- v10 `find_best_match` (lines 141-197): scan the unused passages and return
the winning index and score when the best score reaches 40, else nothing. -/
def find_best_match (s : Summary) (fts : List FullText) : Option (Nat × ℚ) :=
  match scanBest (scoreV10 s) (fun _ ft => ft.used) fts with
  | (some i, bs) => if 40 ≤ bs then some (i, bs) else none
  | (none, _) => none

/-- `full_texts[idx]['used'] = True` (v10 line 207). -/
def markUsed : List FullText → Nat → List FullText
  | [], _ => []
  | ft :: fts, 0 => { ft with used := true } :: fts
  | ft :: fts, n+1 => ft :: markUsed fts n

/-- v10 `match_all` (lines 199-220).  The stored passage of a matched entry
reflects the Python aliasing: the appended dict is the object whose `used`
flag was just set. -/
def match_all : List Summary → List FullText → List MatchEntry
  | [], _ => []
  | s :: ss, fts =>
    match find_best_match s fts with
    | some (idx, sc) =>
      { summary := s, full_text := some { fts.getD idx default with used := true },
        score := sc } :: match_all ss (markUsed fts idx)
    | none =>
      { summary := s, full_text := none, score := 0 } :: match_all ss fts

/-- The sequence of `best_idx` values `match_all` consumes (the indices v10
line 207 marks used), one `Option Nat` per summary, recorded to state
matching exclusivity. -/
def matchIndices : List Summary → List FullText → List (Option Nat)
  | [], _ => []
  | s :: ss, fts =>
    match find_best_match s fts with
    | some (idx, _) => some idx :: matchIndices ss (markUsed fts idx)
    | none => none :: matchIndices ss fts

/-! ## v7 scoring and matching (parse_beshalach_v7.py) -/
/-- v7 `normalize` (lines 15-17): `re.sub(r'[\s"\x27\-־–—׳״]', '', text).strip()`. -/
def normalizeV7 (l : List Char) : List Char :=
  pyStrip (l.filter (fun c => !(pyIsSpace c || c = '"' || c = '\x27' || c = '-' ||
    c = '־' || c = '–' || c = '—' || c = '׳' || c = '״')))

/-- Length of the common prefix of two strings (the `zip` loop of v7
lines 168-173). -/
def commonPrefixLen : List Char → List Char → Nat
  | c :: cs, d :: ds => if c = d then 1 + commonPrefixLen cs ds else 0
  | _, _ => 0

/-- The score v7's `match_summary_to_fulltext` (lines 139-183) assigns to one
candidate: sefer bonus, verse points, and truncated content-ratio points. -/
def scoreV7 (s : Summary) (ft : FullText) : ℚ :=
  let sefer := normalizeV7 s.sefer
  let verse := normalizeV7 s.verse
  let summary_text := normalizeV7 s.summary
  let ft_sefer := normalizeV7 ft.sefer
  let ft_verse := normalizeV7 ft.verse
  let ft_text := normalizeV7 (ft.text.take 500)
  let seferScore : ℚ :=
    if sefer = ft_sefer then 30
    else if 4 < sefer.length ∧ 4 < ft_sefer.length then
      (if sefer <:+: ft_sefer ∨ ft_sefer <:+: sefer then 20
       else if sefer.take 4 = ft_sefer.take 4 then 15 else 0)
    else 0
  let verseScore : ℚ :=
    if verse = ft_verse then 100
    else if 2 < verse.length ∧ 2 < ft_verse.length then
      (if verse <:+: ft_verse then 80
       else if ft_verse <:+: verse then 70
       else
         let common := commonPrefixLen verse ft_verse
         if 2 ≤ common then 30 + (common : ℚ) * 10 else 0)
    else 0
  let summary_words := (hebrewRuns summary_text).dedup
  let contentScore : ℚ :=
    if 3 < summary_words.length then
      let r : ℚ := ((summary_words.filter (fun w => w <:+: ft_text)).length : ℚ)
        / (summary_words.length : ℚ)
      if 3/10 < r then (((r * 50).floor : ℤ) : ℚ) else 0
    else 0
  seferScore + verseScore + contentScore

/-- v7 `match_summary_to_fulltext` (lines 129-194): selection over candidates
whose index is not in `used_indices`; the winner is returned when its score
reaches 50. -/
def match_summary_to_fulltext (s : Summary) (fts : List FullText) (used : List Nat) :
    Option (Nat × ℚ) :=
  match scanBest (scoreV7 s) (fun idx _ => used.contains idx) fts with
  | (some i, bs) => if 50 ≤ bs then some (i, bs) else none
  | (none, _) => none

/-! ## v8 scoring and matching (parse_beshalach_v8.py) -/
/-- v8 `normalize` (lines 14-16): also removes sentence punctuation and
brackets. -/
def normalizeV8 (l : List Char) : List Char :=
  pyStrip (l.filter (fun c => !(pyIsSpace c || c = '"' || c = '\x27' || c = '-' ||
    c = '־' || c = '–' || c = '—' || c = '׳' || c = '״' || c = '.' || c = ',' ||
    c = ':' || c = ';' || c = '!' || c = '?' || c = '(' || c = ')' ||
    c = '[' || c = ']')))

/-- v8 `get_hebrew_words` (lines 18-20): the set of matches of `[א-ת]{2,}`. -/
def get_hebrew_words_v8 (l : List Char) : List (List Char) :=
  ((hebrewRuns l).filter (fun w => 2 ≤ w.length)).dedup

/-- v8 `content_match_score` (lines 133-156): keyword-set overlap ratio,
improved by the phrase-containment ratio over the normalized first 500
characters. -/
def content_match_score (s : Summary) (ft : FullText) : ℚ :=
  if s.keywords = [] then 0
  else
    let score : ℚ := ((s.keywords.filter (fun w => ft.keywords.contains w)).length : ℚ)
      / (s.keywords.length : ℚ)
    let ft_start := normalizeV8 (ft.text_clean.take 500)
    let summary_words := (hebrewRuns s.summary).filter (fun w => 3 ≤ w.length)
    if summary_words ≠ [] then
      max score (((summary_words.filter (fun w => w <:+: ft_start)).length : ℚ)
        / (summary_words.length : ℚ))
    else score

/-- v8 total candidate score (lines 172-185): content score plus verse
bonus. -/
def scoreV8 (s : Summary) (ft : FullText) : ℚ :=
  let content := content_match_score s ft
  let s_verse := normalizeV8 s.verse
  let ft_verse := normalizeV8 ft.verse
  let bonus : ℚ :=
    if s_verse ≠ [] ∧ ft_verse ≠ [] then
      (if s_verse <:+: ft_verse ∨ ft_verse <:+: s_verse then 2/10
       else if s_verse.take 3 = ft_verse.take 3 then 1/10 else 0)
    else 0
  content + bonus

/-- The candidate selection inside v8 `match_summaries_to_full_texts`
(lines 163-198): scan candidates not in `used_indices`, keep the first strict
maximum, match when the best score reaches 0.25. -/
def v8_best_match (s : Summary) (fts : List FullText) (used : List Nat) :
    Option (Nat × ℚ) :=
  match scanBest (scoreV8 s) (fun idx _ => used.contains idx) fts with
  | (some i, bs) => if 1/4 ≤ bs then some (i, bs) else none
  | (none, _) => none

/-- The sequence of indices v8 `match_summaries_to_full_texts` consumes via
its `used_indices` set, one `Option Nat` per summary. -/
def v8_match_indices : List Summary → List FullText → List Nat → List (Option Nat)
  | [], _, _ => []
  | s :: ss, fts, used =>
    match v8_best_match s fts used with
    | some (idx, _) => some idx :: v8_match_indices ss fts (idx :: used)
    | none => none :: v8_match_indices ss fts used

/-! ## Order-independence of keyword sets (claim C8) -/
/-- Two summary records equal except that their keyword lists (Python sets)
are permutations of each other. -/
def KeywordPerm (s s' : Summary) : Prop :=
  s.id = s'.id ∧ s.sefer = s'.sefer ∧ s.verse = s'.verse ∧
  s.summary = s'.summary ∧ s.page = s'.page ∧ s.keywords.Perm s'.keywords

/-! ## v10 HTML/Word rendering (claims C4, C7) -/
/-- Model of `re.sub(r'<[^>]+>', '', text)`: drop each maximal `<...>` span
(a `<`, one or more non-`>` characters, then `>`). -/
def stripTags : List Char → List Char
  | [] => []
  | c :: cs =>
    if c = '<' ∧ cs.takeWhile (fun d => !(d = '>')) ≠ [] ∧
        cs.dropWhile (fun d => !(d = '>')) ≠ [] then
      stripTags (cs.dropWhile (fun d => !(d = '>'))).tail
    else c :: stripTags cs
termination_by l => l.length
decreasing_by
  all_goals simp_wf
  all_goals try
    (have h1 : (cs.dropWhile (fun d => !(d = '>'))).length ≤ cs.length :=
      (List.dropWhile_sublist _).length_le
     have h2 := List.length_tail (cs.dropWhile (fun d => !(d = '>'))))
  all_goals omega

/-- Model of `re.sub(r'\n{3,}', '\n\n', text)`: replace each run of three or
more newlines by exactly two. -/
def squeezeNewlines : List Char → List Char
  | [] => []
  | c :: cs =>
    if c = '\n' then
      (if 3 ≤ 1 + (cs.takeWhile (fun d => d = '\n')).length then ['\n', '\n']
       else List.replicate (1 + (cs.takeWhile (fun d => d = '\n')).length) '\n')
        ++ squeezeNewlines (cs.dropWhile (fun d => d = '\n'))
    else c :: squeezeNewlines cs
termination_by l => l.length
decreasing_by
  all_goals simp_wf
  all_goals try
    (have h1 : (cs.dropWhile (fun d => d = '\n')).length ≤ cs.length :=
      (List.dropWhile_sublist _).length_le)
  all_goals omega

/-- v10 `clean_html` (lines 222-225): strip tags, squeeze newline runs, strip
surrounding whitespace. -/
def clean_html (t : List Char) : List Char :=
  pyStrip (squeezeNewlines (stripTags t))

/-- Decimal rendering of the entry id (`{s['id']}` in the f-strings). -/
def natStr (n : Nat) : List Char := (toString n).data

/-- The fixed HTML prologue of v10 `generate_html` (lines 228-268). -/
def htmlHeader : List Char :=
  "<!DOCTYPE html>\n<html lang=\"he\" dir=\"rtl\">\n<head>\n    <meta charset=\"UTF-8\">\n".data ++
  "    <title>פרשת בשלח - ליקוטי ספרי חסידות</title>\n    <style>\n        @page \x7b size: A4; margin: 2cm; \x7d\n".data ++
  "        body \x7b\n            font-family: \x27Frank Ruehl\x27, \x27David\x27, \x27Times New Roman\x27, serif;\n".data ++
  "            font-size: 14pt;\n            line-height: 1.8;\n            direction: rtl;\n".data ++
  "            text-align: justify;\n            max-width: 900px;\n            margin: 0 auto;\n".data ++
  "            padding: 20px;\n            background: #fff;\n        \x7d\n".data ++
  "        .summary-entry \x7b display: flex; align-items: baseline; margin: 8px 0; gap: 10px; \x7d\n".data ++
  "        .entry-id \x7b font-weight: bold; min-width: 35px; \x7d\n        .entry-verse \x7b font-weight: bold; color: #333; min-width: 80px; \x7d\n".data ++
  "        .entry-summary \x7b flex: 1; \x7d\n        .entry-page \x7b font-weight: bold; min-width: 45px; text-align: left; \x7d\n".data ++
  "        .divider \x7b border-top: 2px solid #000; margin: 30px 0; \x7d\n".data ++
  "        .source-header \x7b text-align: center; font-weight: bold; font-size: 20pt; margin: 25px 0; \x7d\n".data ++
  "        .sefer-header \x7b text-align: center; font-weight: bold; font-size: 16pt; margin: 25px 0 15px 0; background: #f0f0f0; padding: 10px; border-radius: 4px; \x7d\n".data ++
  "        .quote-entry \x7b margin-bottom: 30px; padding: 20px; border: 1px solid #ccc; border-radius: 6px; background: #fafafa; \x7d\n".data ++
  "        .quote-header \x7b display: flex; gap: 20px; margin-bottom: 12px; font-weight: bold; font-size: 15pt; border-bottom: 2px solid #ddd; padding-bottom: 10px; \x7d\n".data ++
  "        .quote-text \x7b text-align: justify; line-height: 2; font-size: 14pt; \x7d\n".data ++
  "        .no-match \x7b color: #999; font-style: italic; \x7d\n        h1 \x7b text-align: center; font-size: 24pt; margin-bottom: 5px; \x7d\n".data ++
  "        h2 \x7b text-align: center; font-size: 18pt; margin-top: 5px; color: #555; \x7d\n".data ++
  "    </style>\n</head>\n<body>\n    <h1>ליקוטי ספרי חסידות</h1>\n    <h2>פרשת בשלח</h2>\n".data ++
  "    <div class=\"divider\"></div>\n    <section>\n        <div class=\"source-header\">מפתח ענינים</div>\n".data

/-- The section divider between the summary index and the quote section (v10 lines 283-287). -/
def htmlMid : List Char :=
  "    </section>\n    <div class=\"divider\"></div>\n    <section>\n        <div class=\"source-header\">מקור השפע</div>\n".data

/-- The closing markup of v10 `generate_html` (lines 314-316). -/
def htmlTail : List Char :=
  "    </section>\n</body>\n</html>".data

/-- The sefer header line emitted when the sefer changes (v10 lines 275, 296). -/
def seferHeaderHtml (sefer : List Char) : List Char :=
  "        <div class=\"sefer-header\">".data ++ sefer ++ "</div>\n".data

/-- One summary-index entry (v10 lines 276-281). -/
def summaryEntryHtml (s : Summary) : List Char :=
  "        <div class=\"summary-entry\">\n            <span class=\"entry-id\">[".data
  ++ natStr s.id
  ++ "]</span>\n            <span class=\"entry-verse\">".data
  ++ s.verse
  ++ "</span>\n            <span class=\"entry-summary\">".data
  ++ s.summary
  ++ "</span>\n            <span class=\"entry-page\">".data
  ++ s.page
  ++ "</span>\n        </div>\n".data

/-- The summary-index section loop (v10 lines 270-281), threading the current
sefer header state. -/
def summarySection : Option (List Char) → List MatchEntry → List Char
  | _, [] => []
  | cur, e :: es =>
    let s := e.summary
    (if cur ≠ some s.sefer then seferHeaderHtml s.sefer else [])
      ++ summaryEntryHtml s ++ summarySection (some s.sefer) es

/-- The explicit "not found" placeholder emitted for unmatched summaries
(v10 line 303). -/
def noMatchHtml : List Char :=
  "<span class=\"no-match\">[לא נמצא טקסט מתאים]</span>".data

/-- The quote text of one entry (v10 lines 298-303): the cleaned passage,
truncated at 3000 characters with an explicit `[...]` marker, or the
"not found" placeholder. -/
def quoteBody (e : MatchEntry) : List Char :=
  match e.full_text with
  | some ft =>
    let t := clean_html ft.text
    if 3000 < t.length then t.take 3000 ++ "\n\n[...]".data else t
  | none => noMatchHtml

/-- The header part of one rendered quote entry (v10 lines 305-311, up to the
quote-text div). -/
def quoteEntryPre (s : Summary) : List Char :=
  "        <div class=\"quote-entry\">\n            <div class=\"quote-header\">\n                <span>[".data
  ++ natStr s.id
  ++ "]</span>\n                <span>".data
  ++ s.verse
  ++ "</span>\n                <span>עמ\x27 ".data
  ++ s.page
  ++ "</span>\n            </div>\n            <div class=\"quote-text\">".data

/-- One rendered quote entry (v10 lines 305-312). -/
def quoteEntryHtml (e : MatchEntry) : List Char :=
  quoteEntryPre e.summary ++ quoteBody e ++ "</div>\n        </div>\n".data

/-- The quote section loop (v10 lines 289-312). -/
def quoteSection : Option (List Char) → List MatchEntry → List Char
  | _, [] => []
  | cur, e :: es =>
    let s := e.summary
    (if cur ≠ some s.sefer then seferHeaderHtml s.sefer else [])
      ++ quoteEntryHtml e ++ quoteSection (some s.sefer) es

/-- v10 `generate_html` (lines 227-317): prologue, summary index, divider,
quote section, closing markup. -/
def generate_html (matched : List MatchEntry) : List Char :=
  htmlHeader ++ summarySection none matched ++ htmlMid
    ++ quoteSection none matched ++ htmlTail

/-- The passage-text truncation of v10 `generate_word` (lines 388-390): cap at
2500 characters with an explicit ` [...]` marker. -/
def generate_word_ft_text (ft : FullText) : List Char :=
  let t := clean_html ft.text
  if 2500 < t.length then t.take 2500 ++ " [...]".data else t

/-! ## OCR retry model (ocr_summaries_index.py, ocr_retry_failed.py)

The network is modelled as an oracle `attempts : Nat → Attempt` giving the
observable outcome of the i-th HTTP request for the page. -/
/-- Outcome of one HTTP attempt: a raised exception, or a response with its
status code, raw body text and parsed `choices[0].message.content`. -/
inductive Attempt where
  | exc (msg : List Char)
  | resp (status : Nat) (body : List Char) (content : List Char)
deriving DecidableEq

/-- An attempt the scripts treat as failed: an exception or a non-200
status. -/
def Attempt.isFail : Attempt → Bool
  | .exc _ => true
  | .resp status _ _ => status ≠ 200

/-- Events the retry loop performs: an HTTP request, or `time.sleep(secs)`. -/
inductive OcrEvent where
  | request
  | sleep (secs : Nat)
deriving DecidableEq

def OcrEvent.isRequest : OcrEvent → Bool
  | .request => true
  | _ => false

/-- The record the OCR functions return for a page: `{"page", "text"}` on
success or `{"error", "page"}` on failure. -/
inductive OcrOutcome where
  | pageText (page : Nat) (text : List Char)
  | pageError (page : Nat) (error : List Char)
deriving DecidableEq

/-- The retry loop of `ocr_with_gemini` (ocr_summaries_index.py lines 92-118):
`i` is the current attempt index, `rem` the remaining iterations of
`range(max_retries)`.  Every branch returns a record; nothing is re-raised. -/
def ocrLoop (attempts : Nat → Attempt) (page maxRetries : Nat) :
    Nat → Nat → OcrOutcome × List OcrEvent
  | _, 0 => (.pageError page "Max retries exceeded".data, [])
  | i, rem+1 =>
    match attempts i with
    | .resp status body content =>
      if status ≠ 200 then
        if i < maxRetries - 1 then
          let r := ocrLoop attempts page maxRetries (i+1) rem
          (r.1, .request :: .sleep 5 :: r.2)
        else (.pageError page body, [.request])
      else (.pageText page content, [.request])
    | .exc msg =>
      if i < maxRetries - 1 then
        let r := ocrLoop attempts page maxRetries (i+1) rem
        (r.1, .request :: .sleep 5 :: r.2)
      else (.pageError page msg, [.request])

/-- `ocr_with_gemini(image_base64, page_num, max_retries=3)`. -/
def ocr_with_gemini (attempts : Nat → Attempt) (page : Nat) (maxRetries : Nat) :
    OcrOutcome × List OcrEvent :=
  ocrLoop attempts page maxRetries 0 maxRetries

/-- The retry loop of `ocr_with_gemini_flash` (ocr_retry_failed.py lines
80-112); it additionally retries 200-responses whose stripped content is
shorter than 100 characters, returning the short content as a success on the
final attempt. -/
def ocrFlashLoop (attempts : Nat → Attempt) (page maxRetries : Nat) :
    Nat → Nat → OcrOutcome × List OcrEvent
  | _, 0 => (.pageError page "Max retries exceeded".data, [])
  | i, rem+1 =>
    match attempts i with
    | .resp status body content =>
      if status ≠ 200 then
        if i < maxRetries - 1 then
          let r := ocrFlashLoop attempts page maxRetries (i+1) rem
          (r.1, .request :: .sleep 5 :: r.2)
        else (.pageError page body, [.request])
      else
        if (pyStrip content).length < 100 ∧ i < maxRetries - 1 then
          let r := ocrFlashLoop attempts page maxRetries (i+1) rem
          (r.1, .request :: .sleep 5 :: r.2)
        else (.pageText page content, [.request])
    | .exc msg =>
      if i < maxRetries - 1 then
        let r := ocrFlashLoop attempts page maxRetries (i+1) rem
        (r.1, .request :: .sleep 5 :: r.2)
      else (.pageError page msg, [.request])

/-- `ocr_with_gemini_flash(image_base64, page_num, max_retries=3)`. -/
def ocr_with_gemini_flash (attempts : Nat → Attempt) (page : Nat) (maxRetries : Nat) :
    OcrOutcome × List OcrEvent :=
  ocrFlashLoop attempts page maxRetries 0 maxRetries

/-! ## difflib.SequenceMatcher model

`similarity_score` in parse_summaries_to_content.py calls
`SequenceMatcher(None, a, b).ratio()`.  The scripts always pass `isjunk=None`,
so the junk set is empty and the two junk-extension loops of
`find_longest_match` never fire; the autojunk popularity filter on `b2j` is
kept. -/
/-- difflib's `b2j` occurrence index: the positions of `c` in `b`, ascending;
with autojunk (length ≥ 200), popular characters (count > len//100 + 1) have
no entries. -/
def b2j (b : List Char) (c : Char) : List Nat :=
  if 200 ≤ b.length ∧ b.length / 100 + 1 < (b.filter (fun d => d = c)).length then []
  else (List.range b.length).filter (fun j => b.getD j ' ' = c)

/-- Association-list lookup for the `j2len` dict. -/
def alookup : List (Nat × Nat) → Nat → Option Nat
  | [], _ => none
  | (j, k) :: rest, x => if j = x then some k else alookup rest x

/-- `j2len.get(j-1, 0)`, guarding Python's out-of-dict `-1` index. -/
def prevLen (j2len : List (Nat × Nat)) (j : Nat) : Nat :=
  if j = 0 then 0 else (alookup j2len (j - 1)).getD 0

/-- The inner loop of `find_longest_match` over the occurrence list of
`a[i]`, building `newj2len` and updating the best block. -/
def flmInner (i : Nat) (j2len : List (Nat × Nat)) :
    List Nat → List (Nat × Nat) × (Nat × Nat × Nat) →
    List (Nat × Nat) × (Nat × Nat × Nat)
  | [], st => st
  | j :: js, (newj2len, (bi, bj, bs)) =>
    let k := prevLen j2len j + 1
    let best := if bs < k then (i + 1 - k, j + 1 - k, k) else (bi, bj, bs)
    flmInner i j2len js ((j, k) :: newj2len, best)

/-- The outer loop of `find_longest_match` over `i in range(alo, ahi)`. -/
def flmOuter (a b : List Char) (blo bhi : Nat) :
    Nat → Nat → List (Nat × Nat) → (Nat × Nat × Nat) → Nat × Nat × Nat
  | _, 0, _, best => best
  | i, n+1, j2len, best =>
    let js := (b2j b (a.getD i ' ')).filter (fun j => blo ≤ j ∧ j < bhi)
    let st := flmInner i j2len js ([], best)
    flmOuter a b blo bhi (i+1) n st.1 st.2

/-- The first (non-junk) extension loop of `find_longest_match`: grow the
block downwards while the preceding characters match. -/
def extendLo (a b : List Char) (alo blo : Nat) :
    Nat → Nat → Nat → Nat → Nat × Nat × Nat
  | 0, bi, bj, bs => (bi, bj, bs)
  | fuel+1, bi, bj, bs =>
    if alo < bi ∧ blo < bj ∧ a.getD (bi-1) ' ' = b.getD (bj-1) ' ' then
      extendLo a b alo blo fuel (bi-1) (bj-1) (bs+1)
    else (bi, bj, bs)

/-- The second extension loop: grow the block upwards while the following
characters match. -/
def extendHi (a b : List Char) (ahi bhi : Nat) :
    Nat → Nat → Nat → Nat → Nat × Nat × Nat
  | 0, bi, bj, bs => (bi, bj, bs)
  | fuel+1, bi, bj, bs =>
    if bi + bs < ahi ∧ bj + bs < bhi ∧ a.getD (bi+bs) ' ' = b.getD (bj+bs) ' ' then
      extendHi a b ahi bhi fuel bi bj (bs+1)
    else (bi, bj, bs)

/-- `find_longest_match(alo, ahi, blo, bhi)` with empty junk set. -/
def find_longest_match (a b : List Char) (alo ahi blo bhi : Nat) : Nat × Nat × Nat :=
  let m0 := flmOuter a b blo bhi alo (ahi - alo) [] (alo, blo, 0)
  let m1 := extendLo a b alo blo m0.1 m0.1 m0.2.1 m0.2.2
  extendHi a b ahi bhi (ahi - (m1.1 + m1.2.2)) m1.1 m1.2.1 m1.2.2

/-- `get_matching_blocks`, written with recursion fuel (`len(a)+len(b)+1`
always suffices because each recursive call strictly shrinks the window);
difflib's queue order and its final merging of adjacent blocks do not change
the total matched size that `ratio` consumes. -/
def matchingBlocks (a b : List Char) : Nat → Nat → Nat → Nat → Nat → List (Nat × Nat × Nat)
  | 0, _, _, _, _ => []
  | fuel+1, alo, ahi, blo, bhi =>
    let m := find_longest_match a b alo ahi blo bhi
    if m.2.2 = 0 then []
    else matchingBlocks a b fuel alo m.1 blo m.2.1
      ++ (m.1, m.2.1, m.2.2) :: matchingBlocks a b fuel (m.1 + m.2.2) ahi (m.2.1 + m.2.2) bhi

/-- The `matches` total of `ratio`: the summed sizes of the matching blocks. -/
def smMatches (a b : List Char) : Nat :=
  ((matchingBlocks a b (a.length + b.length + 1) 0 a.length 0 b.length).map
    (fun t => t.2.2)).sum

/-- `SequenceMatcher.ratio()` = `2*M/T`, and 1.0 when both strings are
empty (difflib `_calculate_ratio`). -/
def ratioValue (a b : List Char) : ℚ :=
  if a.length + b.length = 0 then 1
  else 2 * (smMatches a b : ℚ) / ((a.length : ℚ) + (b.length : ℚ))

/-- `similarity_score` (parse_summaries_to_content.py lines 70-74):
the ratio of the normalized strings. -/
def similarity_score (x y : List Char) : ℚ :=
  ratioValue (normalize_text x) (normalize_text y)

/-- Range/size invariant of a candidate matching block. -/
def BestInv (alo ahi blo bhi : Nat) (m : Nat × Nat × Nat) : Prop :=
  alo ≤ m.1 ∧ m.1 + m.2.2 ≤ ahi ∧ blo ≤ m.2.1 ∧ m.2.1 + m.2.2 ≤ bhi

/-- Invariant of the `j2len` dict once every index below `iNext` has been
processed. -/
def J2Inv (alo blo bhi iNext : Nat) (l : List (Nat × Nat)) : Prop :=
  ∀ p ∈ l, blo ≤ p.1 ∧ p.1 < bhi ∧ p.2 + blo ≤ p.1 + 1 ∧ p.2 + alo ≤ iNext

/-! ## parse_summaries_to_content.py data model and summary-to-content
mapping -/
/-- The Hebrew-numeral value table of `hebrew_page_to_int` (lines 44-51);
characters outside the table contribute 0. -/
def hebrewNumVal (c : Char) : Nat :=
  if c = 'א' then 1 else if c = 'ב' then 2 else if c = 'ג' then 3
  else if c = 'ד' then 4 else if c = 'ה' then 5 else if c = 'ו' then 6
  else if c = 'ז' then 7 else if c = 'ח' then 8 else if c = 'ט' then 9
  else if c = 'י' then 10 else if c = 'כ' then 20 else if c = 'ל' then 30
  else if c = 'מ' then 40 else if c = 'נ' then 50 else if c = 'ס' then 60
  else if c = 'ע' then 70 else if c = 'פ' then 80 else if c = 'צ' then 90
  else if c = 'ק' then 100 else if c = 'ר' then 200 else if c = 'ש' then 300
  else if c = 'ת' then 400 else 0

/-- `hebrew_page_to_int` (lines 44-58): drop apostrophes, double quotes and
spaces, then sum the letter values. -/
def hebrew_page_to_int (page : List Char) : Nat :=
  ((page.filter (fun c => !(c = '\x27' ∨ c = '"' ∨ c = ' '))).map hebrewNumVal).sum

/-- A `Summary` dataclass record (the fields read by the mapper). -/
structure PSummary where
  author : List Char
  opening_words : List Char
  summary_text : List Char
  page_ref : List Char
deriving DecidableEq

/-- A `ContentSection` dataclass record (the fields read by the mapper). -/
structure ContentSection where
  author : List Char
  text : List Char
  page_number : List Char
  opening_phrases : List (List Char)
deriving DecidableEq

/-- The opening-phrase signal of `_map_summaries_to_content` (Signal 1,
lines 479-497): exact match 1.0 with break, containment 0.9 / 0.8, fuzzy
similarity kept when above 0.7. -/
def bestPhraseScore (openingNorm : List Char) : List (List Char) → ℚ → ℚ
  | [], best => best
  | phrase :: rest, best =>
    let pn := normalize_text phrase
    if openingNorm = pn then 1
    else if openingNorm <:+: pn then bestPhraseScore openingNorm rest (max best (9/10))
    else if pn <:+: openingNorm then bestPhraseScore openingNorm rest (max best (8/10))
    else
      if 7/10 < similarity_score openingNorm pn then
        bestPhraseScore openingNorm rest (max best (similarity_score openingNorm pn))
      else bestPhraseScore openingNorm rest best

/-- The score `_map_summaries_to_content` computes for one candidate pair
(lines 476-520): opening-phrase signal × 0.4, containment bonus 0.15,
page-distance signal up to 0.3, author similarity × 0.3. -/
def mapScore (summary : PSummary) (sec : ContentSection) (author_sim : ℚ) : ℚ :=
  let openingNorm := normalize_text summary.opening_words
  let s1 := bestPhraseScore openingNorm sec.opening_phrases 0 * (4/10)
  let s2 : ℚ := if openingNorm <:+: normalize_text sec.text then 15/100 else 0
  let s3 : ℚ :=
    if summary.page_ref ≠ [] ∧ sec.page_number ≠ [] then
      let d := ((hebrew_page_to_int summary.page_ref : ℤ)
        - (hebrew_page_to_int sec.page_number : ℤ)).natAbs
      if d = 0 then 3/10 else if d ≤ 1 then 2/10 else if d ≤ 3 then 1/10 else 0
    else 0
  s1 + s2 + s3 + author_sim * (3/10)

/-- The per-summary candidate selection of `_map_summaries_to_content`
(lines 457-522): restrict to sections whose author similarity exceeds 0.7
(strict author matching, no fallback), keep the first strict maximum, and
match only above 0.25. -/
def mapSummaryToContent (summary : PSummary) (sections : List ContentSection) :
    Option (ContentSection × ℚ) :=
  let author_sections := (sections.map
    (fun sec => (sec, similarity_score sec.author summary.author))).filter
    (fun p => 7/10 < p.2)
  if author_sections = [] then none
  else
    match author_sections.foldl
      (fun (acc : Option ContentSection × ℚ) p =>
        if acc.2 < mapScore summary p.1 p.2 then (some p.1, mapScore summary p.1 p.2)
        else acc) (none, 0) with
    | (some sec, sc) => if 1/4 < sc then some (sec, sc) else none
    | (none, _) => none

/-! ## Concrete records for the score-range and book-restriction
counterexamples -/
/-- A summary whose opening words, page and author line up perfectly with
`cex5Sec`. -/
def cex5S : PSummary := {
  author := "אבגד".data
  opening_words := "שלום עליכם".data
  summary_text := []
  page_ref := "י".data }

/-- A content section agreeing with `cex5S` on every scoring signal. -/
def cex5Sec : ContentSection := {
  author := "אבגד".data
  text := "<b>שלום עליכם</b>".data
  page_number := "י".data
  opening_phrases := ["שלום עליכם".data] }

/-! ## Book/author restriction (claim C2) -/
/-- A summary and a passage with identical verses but different sefarim. -/
def c2S : Summary := {
  id := 1
  sefer := "אבג".data
  verse := "דהוז".data
  summary := []
  page := []
  keywords := [] }

/-- The passage `find_best_match` pairs with `c2S` despite the different
sefer. -/
def c2F : FullText := {
  sefer := "חטיכ".data
  verse := "דהוז".data
  text := []
  text_clean := []
  keywords := []
  used := false }

/-- A passage whose cleaned body is 3001 characters long. -/
def c7Long : FullText := {
  sefer := []
  verse := []
  text := List.replicate 3001 'א'
  text_clean := []
  keywords := []
  used := false }

/-- Summaries for the keyword-permutation witness. -/
def c8S : Summary := { c2S with keywords := ["אבג".data, "דהו".data] }

def c8Sp : Summary := { c2S with keywords := ["דהו".data, "אבג".data] }

theorem collapseWs_mem {b : Bool} {l : List Char} {c : Char}
    (h : c ∈ collapseWs b l) : (c ∈ l ∧ pyIsSpace c = false) ∨ c = ' ' := by
  induction l generalizing b with
  | nil => simp [collapseWs] at h
  | cons d ds ih =>
    rcases hd : pyIsSpace d with _ | _
    · simp only [collapseWs, hd, Bool.false_eq_true, if_false] at h
      rcases List.mem_cons.1 h with rfl | h'
      · exact Or.inl ⟨List.mem_cons_self _ _, hd⟩
      · rcases ih h' with ⟨h1, h2⟩ | h3
        · exact Or.inl ⟨List.mem_cons_of_mem _ h1, h2⟩
        · exact Or.inr h3
    · rcases b with _ | _
      · simp only [collapseWs, hd, if_true, Bool.false_eq_true, if_false] at h
        rcases List.mem_cons.1 h with rfl | h'
        · exact Or.inr rfl
        · rcases ih h' with ⟨h1, h2⟩ | h3
          · exact Or.inl ⟨List.mem_cons_of_mem _ h1, h2⟩
          · exact Or.inr h3
      · simp only [collapseWs, hd, if_true] at h
        rcases ih h with ⟨h1, h2⟩ | h3
        · exact Or.inl ⟨List.mem_cons_of_mem _ h1, h2⟩
        · exact Or.inr h3

theorem collapseWs_head_true {l : List Char} {c : Char}
    (h : (collapseWs true l).head? = some c) : pyIsSpace c = false := by
  induction l with
  | nil => simp [collapseWs] at h
  | cons d ds ih =>
    rcases hd : pyIsSpace d with _ | _
    · simp only [collapseWs, hd, Bool.false_eq_true, if_false,
        List.head?_cons, Option.some.injEq] at h
      subst h; exact hd
    · simp only [collapseWs, hd, if_true] at h
      exact ih h

theorem collapseWs_noTwoWs (l : List Char) :
    NoTwoWs (collapseWs false l) ∧ NoTwoWs (collapseWs true l) := by
  induction l with
  | nil => constructor <;> simp [collapseWs, NoTwoWs]
  | cons d ds ih =>
    rcases hd : pyIsSpace d with _ | _
    · have key : NoTwoWs (d :: collapseWs false ds) := by
        unfold NoTwoWs
        rw [List.chain'_cons']
        refine ⟨?_, ih.1⟩
        intro b _ hcontra
        rw [hcontra.1] at hd
        cases hd
      constructor
      · simpa only [collapseWs, hd, Bool.false_eq_true, if_false] using key
      · simpa only [collapseWs, hd, Bool.false_eq_true, if_false] using key
    · constructor
      · have : NoTwoWs (' ' :: collapseWs true ds) := by
          unfold NoTwoWs
          rw [List.chain'_cons']
          refine ⟨?_, ih.2⟩
          intro b hb hcontra
          rw [collapseWs_head_true hb] at hcontra
          exact absurd hcontra.2 (by simp)
        simpa only [collapseWs, hd, if_true, Bool.false_eq_true, if_false] using this
      · simpa only [collapseWs, hd, if_true] using ih.2

theorem stripEnd_subset {l : List Char} {c : Char} (h : c ∈ stripEnd l) : c ∈ l := by
  induction l with
  | nil => simpa [stripEnd] using h
  | cons d ds ih =>
    rw [show stripEnd (d :: ds)
        = (if stripEnd ds = [] && pyIsSpace d then [] else d :: stripEnd ds) from rfl] at h
    by_cases hc : stripEnd ds = [] && pyIsSpace d
    · rw [if_pos hc] at h; simp at h
    · rw [if_neg hc] at h
      rcases List.mem_cons.1 h with rfl | h'
      · exact List.mem_cons_self _ _
      · exact List.mem_cons_of_mem _ (ih h')

theorem stripEnd_head {l : List Char} {c : Char}
    (h : (stripEnd l).head? = some c) : l.head? = some c := by
  cases l with
  | nil => simp [stripEnd] at h
  | cons d ds =>
    rw [show stripEnd (d :: ds)
        = (if stripEnd ds = [] && pyIsSpace d then [] else d :: stripEnd ds) from rfl] at h
    by_cases hc : stripEnd ds = [] && pyIsSpace d
    · rw [if_pos hc] at h; simp at h
    · rw [if_neg hc] at h
      simpa using h

theorem stripEnd_getLast : ∀ {l : List Char} {c : Char},
    (stripEnd l).getLast? = some c → pyIsSpace c = false := by
  intro l
  induction l with
  | nil => intro c h; simp [stripEnd] at h
  | cons d ds ih =>
    intro c h
    rw [show stripEnd (d :: ds)
        = (if stripEnd ds = [] && pyIsSpace d then [] else d :: stripEnd ds) from rfl] at h
    by_cases hc : stripEnd ds = [] && pyIsSpace d
    · rw [if_pos hc] at h; simp at h
    · rw [if_neg hc] at h
      rcases hr : stripEnd ds with _ | ⟨e, es⟩
      · rw [hr] at h
        simp only [List.getLast?_singleton, Option.some.injEq] at h
        subst h
        rw [hr] at hc
        simpa using hc
      · rw [hr, List.getLast?_cons_cons, ← hr] at h
        exact ih h

theorem stripEnd_noTwoWs {l : List Char} (h : NoTwoWs l) : NoTwoWs (stripEnd l) := by
  induction l with
  | nil => simpa [stripEnd] using h
  | cons d ds ih =>
    rw [show stripEnd (d :: ds)
        = (if stripEnd ds = [] && pyIsSpace d then [] else d :: stripEnd ds) from rfl]
    by_cases hc : stripEnd ds = [] && pyIsSpace d
    · rw [if_pos hc]; simp [NoTwoWs]
    · rw [if_neg hc]
      unfold NoTwoWs at h ⊢
      rw [List.chain'_cons'] at h ⊢
      refine ⟨?_, ih h.2⟩
      intro b hb
      exact h.1 b (stripEnd_head hb)

theorem dropWhile_head_not {p : Char → Bool} : ∀ {l : List Char} {c : Char},
    (l.dropWhile p).head? = some c → p c = false := by
  intro l
  induction l with
  | nil => intro c h; simp at h
  | cons d ds ih =>
    intro c h
    rw [List.dropWhile_cons] at h
    by_cases hd : p d
    · rw [if_pos hd] at h; exact ih h
    · rw [if_neg hd] at h
      simp only [List.head?_cons, Option.some.injEq] at h
      subst h; simpa using hd

theorem dropWhile_subset {p : Char → Bool} : ∀ {l : List Char} {c : Char},
    c ∈ l.dropWhile p → c ∈ l := by
  intro l
  induction l with
  | nil => intro c h; simpa using h
  | cons d ds ih =>
    intro c h
    rw [List.dropWhile_cons] at h
    by_cases hd : p d
    · rw [if_pos hd] at h; exact List.mem_cons_of_mem _ (ih h)
    · rw [if_neg hd] at h; exact h

theorem dropWhile_noTwoWs {p : Char → Bool} : ∀ {l : List Char},
    NoTwoWs l → NoTwoWs (l.dropWhile p) := by
  intro l
  induction l with
  | nil => intro h; simpa using h
  | cons d ds ih =>
    intro h
    rw [List.dropWhile_cons]
    by_cases hd : p d
    · rw [if_pos hd]
      unfold NoTwoWs at h
      rw [List.chain'_cons'] at h
      exact ih h.2
    · rw [if_neg hd]; exact h

theorem dropWhile_eq_self {p : Char → Bool} {l : List Char}
    (h : ∀ c, l.head? = some c → p c = false) : l.dropWhile p = l := by
  cases l with
  | nil => rfl
  | cons d ds =>
    rw [List.dropWhile_cons, if_neg]
    rw [h d rfl]
    simp

theorem stripEnd_eq_self : ∀ {l : List Char},
    (∀ c, l.getLast? = some c → pyIsSpace c = false) → stripEnd l = l := by
  intro l
  induction l with
  | nil => intro _; rfl
  | cons d ds ih =>
    intro h
    rw [show stripEnd (d :: ds)
        = (if stripEnd ds = [] && pyIsSpace d then [] else d :: stripEnd ds) from rfl]
    cases ds with
    | nil =>
      have : pyIsSpace d = false := h d rfl
      rw [if_neg]
      · rfl
      · simp [stripEnd, this]
    | cons e es =>
      have htail : stripEnd (e :: es) = e :: es := by
        apply ih
        intro c hc
        apply h
        rw [List.getLast?_cons_cons]
        exact hc
      rw [htail, if_neg]
      simp

theorem collapseWs_eq_self : ∀ {l : List Char},
    (∀ c ∈ l, pyIsSpace c = true → c = ' ') → NoTwoWs l →
    collapseWs false l = l := by
  intro l
  induction l with
  | nil => intro _ _; rfl
  | cons d ds ih =>
    intro hchars hchain
    unfold NoTwoWs at hchain
    rw [List.chain'_cons'] at hchain
    rcases hd : pyIsSpace d with _ | _
    · simp only [collapseWs, hd, Bool.false_eq_true, if_false]
      rw [ih (fun c hc => hchars c (List.mem_cons_of_mem _ hc)) hchain.2]
    · have hdsp : d = ' ' := hchars d (List.mem_cons_self _ _) hd
      simp only [collapseWs, hd, if_true]
      rw [← hdsp]
      -- the tail starts with a non-space character, so `collapseWs true` is the
      -- identity on it
      cases ds with
      | nil => rfl
      | cons e es =>
        have he : pyIsSpace e = false := by
          have := hchain.1 e rfl
          rcases hh : pyIsSpace e with _ | _
          · rfl
          · exact absurd ⟨hd, hh⟩ this
        have hds : collapseWs false (e :: es) = e :: es :=
          ih (fun c hc => hchars c (List.mem_cons_of_mem _ hc)) hchain.2
        simp only [collapseWs, he, Bool.false_eq_true, if_false] at hds ⊢
        rw [hds]

theorem listMapId {f : Char → Char} : ∀ {l : List Char},
    (∀ c ∈ l, f c = c) → l.map f = l := by
  intro l
  induction l with
  | nil => intro _; rfl
  | cons d ds ih =>
    intro h
    rw [List.map_cons, h d (List.mem_cons_self _ _),
      ih (fun c hc => h c (List.mem_cons_of_mem _ hc))]

theorem listFilterId {p : Char → Bool} : ∀ {l : List Char},
    (∀ c ∈ l, p c = true) → l.filter p = l := by
  intro l
  induction l with
  | nil => intro _; rfl
  | cons d ds ih =>
    intro h
    rw [List.filter_cons, if_pos (h d (List.mem_cons_self _ _)),
      ih (fun c hc => h c (List.mem_cons_of_mem _ hc))]

theorem normalize_text_clean (l : List Char) : CleanStr (normalize_text l) := by
  unfold normalize_text pyStrip
  set m := (l.filter (fun c => !isNikud c)).map (fun c => if isPunctDash c then ' ' else c)
    with hm
  refine ⟨?_, ?_, ?_, ?_⟩
  · intro c hc
    have hcw : c ∈ collapseWs false m := dropWhile_subset (stripEnd_subset hc)
    rcases collapseWs_mem hcw with ⟨hmem, hnsp⟩ | rfl
    · rw [hm] at hmem
      rcases List.mem_map.1 hmem with ⟨d, hd, hde⟩
      rcases hpd : isPunctDash d with _ | _
      · rw [if_neg (by rw [hpd]; simp)] at hde
        subst hde
        have hnk : (!isNikud d) = true := (List.mem_filter.1 hd).2
        refine ⟨by simpa using hnk, hpd, ?_⟩
        intro hsp
        rw [hsp] at hnsp
        exact absurd hnsp (by simp)
      · rw [if_pos (by rw [hpd])] at hde
        subst hde
        refine ⟨by decide, by decide, fun _ => rfl⟩
    · refine ⟨by decide, by decide, fun _ => rfl⟩
  · exact stripEnd_noTwoWs (dropWhile_noTwoWs (collapseWs_noTwoWs m).1)
  · intro c hc
    exact dropWhile_head_not (stripEnd_head hc)
  · intro c hc
    exact stripEnd_getLast hc

/-- Claim C10: `normalize_text` is idempotent, and its output contains no nikud
diacritics (U+0591 to U+05C7), none of the replaced punctuation characters
`.,;:!?-–—`, and no two consecutive whitespace characters. -/
theorem C10_normalize_text_idempotent (l : List Char) :
    normalize_text (normalize_text l) = normalize_text l ∧
    (∀ c ∈ normalize_text l, isNikud c = false ∧ isPunctDash c = false) ∧
    NoTwoWs (normalize_text l) := by
  obtain ⟨hchars, hchain, hhead, hlast⟩ := normalize_text_clean l
  refine ⟨?_, fun c hc => ⟨(hchars c hc).1, (hchars c hc).2.1⟩, hchain⟩
  set o := normalize_text l with ho
  show normalize_text o = o
  unfold normalize_text pyStrip
  rw [listFilterId (fun c hc => by rw [(hchars c hc).1]; rfl)]
  rw [listMapId (fun c hc => by rw [if_neg (by rw [(hchars c hc).2.1]; simp)])]
  rw [collapseWs_eq_self (fun c hc => (hchars c hc).2.2) hchain]
  rw [dropWhile_eq_self hhead]
  exact stripEnd_eq_self hlast

/-! ## Characterization of the shared selection loop -/
theorem scanBestGo_spec {α : Type} [Inhabited α] (score : α → ℚ) (skip : Nat → α → Bool) :
    ∀ (l : List α) (n : Nat) (bi : Option Nat) (bs : ℚ) (ri : Option Nat) (rb : ℚ),
    scanBestGo score skip n l (bi, bs) = (ri, rb) →
    bs ≤ rb ∧
    ((ri = bi ∧ rb = bs) ∨
      ∃ j, j < l.length ∧ skip (n + j) (l.getD j default) = false ∧
        ri = some (n + j) ∧ rb = score (l.getD j default) ∧ bs < rb ∧
        ∀ j', j' < j → skip (n + j') (l.getD j' default) = false →
          score (l.getD j' default) < rb) ∧
    (∀ j, j < l.length → skip (n + j) (l.getD j default) = false →
      score (l.getD j default) ≤ rb) := by
  intro l
  induction l with
  | nil =>
    intro n bi bs ri rb h
    simp only [scanBestGo, Prod.mk.injEq] at h
    refine ⟨le_of_eq h.2, Or.inl ⟨h.1.symm, h.2.symm⟩, ?_⟩
    intro j hj
    simp at hj
  | cons a l ih =>
    intro n bi bs ri rb h
    rcases hskip : skip n a with _ | _
    · -- the head is a live candidate
      rcases hlt : decide (bs < score a) with _ | _
      · -- head does not beat the current best
        have hlt' : ¬ bs < score a := of_decide_eq_false hlt
        rw [show scanBestGo score skip n (a :: l) (bi, bs)
            = scanBestGo score skip (n+1) l (bi, bs) from by
          simp [scanBestGo, hskip, hlt']] at h
        obtain ⟨h1, h2, h3⟩ := ih (n+1) bi bs ri rb h
        refine ⟨h1, ?_, ?_⟩
        · rcases h2 with h2 | ⟨j, hj, hsk, hri, hrb, hbs, hprev⟩
          · exact Or.inl h2
          · refine Or.inr ⟨j+1, by simpa using hj, ?_, ?_, ?_, hbs, ?_⟩
            · rw [show n + (j+1) = (n+1) + j from by omega]
              simpa using hsk
            · rw [show n + (j+1) = (n+1) + j from by omega]
              simpa using hri
            · simpa using hrb
            · intro j' hj' hskj'
              cases j' with
              | zero =>
                simp only [List.getD_cons_zero] at hskj' ⊢
                calc score a ≤ bs := le_of_not_lt hlt'
                  _ < rb := hbs
              | succ k =>
                have := hprev k (by omega)
                rw [show n + (k+1) = (n+1) + k from by omega] at hskj'
                simp only [List.getD_cons_succ] at hskj'
                simpa using this hskj'
        · intro j hj hskj
          cases j with
          | zero =>
            simp only [List.getD_cons_zero] at hskj ⊢
            calc score a ≤ bs := le_of_not_lt hlt'
              _ ≤ rb := h1
          | succ k =>
            have := h3 k (by simpa using hj)
            rw [show n + (k+1) = (n+1) + k from by omega] at hskj
            simp only [List.getD_cons_succ] at hskj
            simpa using this hskj
      · -- head becomes the new best
        have hlt' : bs < score a := of_decide_eq_true hlt
        rw [show scanBestGo score skip n (a :: l) (bi, bs)
            = scanBestGo score skip (n+1) l (some n, score a) from by
          simp [scanBestGo, hskip, hlt']] at h
        obtain ⟨h1, h2, h3⟩ := ih (n+1) (some n) (score a) ri rb h
        refine ⟨le_of_lt (lt_of_lt_of_le hlt' h1), ?_, ?_⟩
        · rcases h2 with ⟨h2a, h2b⟩ | ⟨j, hj, hsk, hri, hrb, hbs, hprev⟩
          · refine Or.inr ⟨0, by simp, by simpa using hskip, ?_, ?_, ?_, ?_⟩
            · simpa using h2a
            · simpa using h2b
            · rw [h2b]; exact hlt'
            · intro j' hj'
              exact absurd hj' (Nat.not_lt_zero _)
          · refine Or.inr ⟨j+1, by simpa using hj, ?_, ?_, ?_, lt_trans hlt' hbs, ?_⟩
            · rw [show n + (j+1) = (n+1) + j from by omega]
              simpa using hsk
            · rw [show n + (j+1) = (n+1) + j from by omega]
              simpa using hri
            · simpa using hrb
            · intro j' hj' hskj'
              cases j' with
              | zero =>
                simp only [List.getD_cons_zero] at hskj' ⊢
                exact hbs
              | succ k =>
                have := hprev k (by omega)
                rw [show n + (k+1) = (n+1) + k from by omega] at hskj'
                simp only [List.getD_cons_succ] at hskj'
                simpa using this hskj'
        · intro j hj hskj
          cases j with
          | zero =>
            simp only [List.getD_cons_zero] at hskj ⊢
            exact h1
          | succ k =>
            have := h3 k (by simpa using hj)
            rw [show n + (k+1) = (n+1) + k from by omega] at hskj
            simp only [List.getD_cons_succ] at hskj
            simpa using this hskj
    · -- the head is skipped (already consumed)
      rw [show scanBestGo score skip n (a :: l) (bi, bs)
          = scanBestGo score skip (n+1) l (bi, bs) from by simp [scanBestGo, hskip]] at h
      obtain ⟨h1, h2, h3⟩ := ih (n+1) bi bs ri rb h
      refine ⟨h1, ?_, ?_⟩
      · rcases h2 with h2 | ⟨j, hj, hsk, hri, hrb, hbs, hprev⟩
        · exact Or.inl h2
        · refine Or.inr ⟨j+1, by simpa using hj, ?_, ?_, ?_, hbs, ?_⟩
          · rw [show n + (j+1) = (n+1) + j from by omega]
            simpa using hsk
          · rw [show n + (j+1) = (n+1) + j from by omega]
            simpa using hri
          · simpa using hrb
          · intro j' hj' hskj'
            cases j' with
            | zero =>
              simp only [List.getD_cons_zero] at hskj'
              rw [Nat.add_zero] at hskj'
              rw [hskj'] at hskip
              cases hskip
            | succ k =>
              have := hprev k (by omega)
              rw [show n + (k+1) = (n+1) + k from by omega] at hskj'
              simp only [List.getD_cons_succ] at hskj'
              simpa using this hskj'
      · intro j hj hskj
        cases j with
        | zero =>
          simp only [List.getD_cons_zero] at hskj
          rw [Nat.add_zero] at hskj
          rw [hskj] at hskip
          cases hskip
        | succ k =>
          have := h3 k (by simpa using hj)
          rw [show n + (k+1) = (n+1) + k from by omega] at hskj
          simp only [List.getD_cons_succ] at hskj
          simpa using this hskj

theorem scanBest_some {α : Type} [Inhabited α] {score : α → ℚ} {skip : Nat → α → Bool}
    {fts : List α} {i : Nat} {b : ℚ}
    (h : scanBest score skip fts = (some i, b)) :
    i < fts.length ∧ skip i (fts.getD i default) = false ∧
    b = score (fts.getD i default) ∧ 0 < b ∧
    (∀ j, j < fts.length → skip j (fts.getD j default) = false →
      score (fts.getD j default) ≤ b) ∧
    (∀ j, j < i → skip j (fts.getD j default) = false →
      score (fts.getD j default) < b) := by
  obtain ⟨h1, h2, h3⟩ := scanBestGo_spec score skip fts 0 none 0 (some i) b h
  rcases h2 with ⟨h2a, _⟩ | ⟨j, hj, hsk, hri, hrb, hbs, hprev⟩
  · cases h2a
  · have hij : i = j := by simpa using hri
    subst hij
    refine ⟨hj, by simpa using hsk, by simpa using hrb, hbs, ?_, ?_⟩
    · intro j' hj' hskj'
      have := h3 j' hj'
      simpa using this (by simpa using hskj')
    · intro j' hj' hskj'
      have := hprev j' hj'
      simpa using this (by simpa using hskj')

theorem scanBest_none {α : Type} [Inhabited α] {score : α → ℚ} {skip : Nat → α → Bool}
    {fts : List α} {b : ℚ} (h : scanBest score skip fts = (none, b)) :
    b = 0 ∧ ∀ j, j < fts.length → skip j (fts.getD j default) = false →
      score (fts.getD j default) ≤ 0 := by
  obtain ⟨h1, h2, h3⟩ := scanBestGo_spec score skip fts 0 none 0 none b h
  rcases h2 with ⟨_, h2b⟩ | ⟨j, hj, hsk, hri, _⟩
  · subst h2b
    refine ⟨rfl, ?_⟩
    intro j hj hskj
    have := h3 j hj
    simpa using this (by simpa using hskj)
  · cases hri

/-- What `find_best_match` reports when it returns a match: the winning index
is in range and unused, carries its own score, reaches the 40-point threshold,
is maximal among unused candidates, and strictly beats every earlier unused
candidate. -/
theorem find_best_match_some {s : Summary} {fts : List FullText} {i : Nat} {b : ℚ}
    (h : find_best_match s fts = some (i, b)) :
    i < fts.length ∧ (fts.getD i default).used = false ∧
    b = scoreV10 s (fts.getD i default) ∧ 40 ≤ b ∧
    (∀ j, j < fts.length → (fts.getD j default).used = false →
      scoreV10 s (fts.getD j default) ≤ b) ∧
    (∀ j, j < i → (fts.getD j default).used = false →
      scoreV10 s (fts.getD j default) < b) := by
  unfold find_best_match at h
  rcases hscan : scanBest (scoreV10 s) (fun _ ft => ft.used) fts with ⟨ri, rb⟩
  rw [hscan] at h
  cases ri with
  | none => exact absurd h (by simp)
  | some k =>
    have h' : (if (40:ℚ) ≤ rb then some (k, rb) else none) = some (i, b) := h
    by_cases hθ : (40:ℚ) ≤ rb
    · rw [if_pos hθ] at h'
      obtain ⟨hki, hrb⟩ : k = i ∧ rb = b := by
        have := Option.some.inj h'
        exact ⟨congrArg Prod.fst this, congrArg Prod.snd this⟩
      subst hki; subst hrb
      obtain ⟨g1, g2, g3, _, g5, g6⟩ := scanBest_some hscan
      exact ⟨g1, g2, g3, hθ, g5, g6⟩
    · rw [if_neg hθ] at h'
      cases h'

/-- `find_best_match` returns nothing when every unused candidate scores under
40. -/
theorem find_best_match_none {s : Summary} {fts : List FullText}
    (hall : ∀ j, j < fts.length → (fts.getD j default).used = false →
      scoreV10 s (fts.getD j default) < 40) :
    find_best_match s fts = none := by
  unfold find_best_match
  rcases hscan : scanBest (scoreV10 s) (fun _ ft => ft.used) fts with ⟨ri, rb⟩
  cases ri with
  | none => rfl
  | some k =>
    show (if (40:ℚ) ≤ rb then some (k, rb) else none) = none
    obtain ⟨g1, g2, g3, _, _, _⟩ := scanBest_some hscan
    rw [if_neg]
    rw [g3]
    exact not_le.mpr (hall k g1 g2)

/-- v7 match facts: same shape as v10 with the used-indices set and the
50-point threshold. -/
theorem v7_match_some {s : Summary} {fts : List FullText} {used : List Nat}
    {i : Nat} {b : ℚ}
    (h : match_summary_to_fulltext s fts used = some (i, b)) :
    i < fts.length ∧ used.contains i = false ∧
    b = scoreV7 s (fts.getD i default) ∧ 50 ≤ b ∧
    (∀ j, j < fts.length → used.contains j = false →
      scoreV7 s (fts.getD j default) ≤ b) ∧
    (∀ j, j < i → used.contains j = false →
      scoreV7 s (fts.getD j default) < b) := by
  unfold match_summary_to_fulltext at h
  rcases hscan : scanBest (scoreV7 s) (fun idx _ => used.contains idx) fts with ⟨ri, rb⟩
  rw [hscan] at h
  cases ri with
  | none => exact absurd h (by simp)
  | some k =>
    have h' : (if (50:ℚ) ≤ rb then some (k, rb) else none) = some (i, b) := h
    by_cases hθ : (50:ℚ) ≤ rb
    · rw [if_pos hθ] at h'
      obtain ⟨hki, hrb⟩ : k = i ∧ rb = b := by
        have := Option.some.inj h'
        exact ⟨congrArg Prod.fst this, congrArg Prod.snd this⟩
      subst hki; subst hrb
      obtain ⟨g1, g2, g3, _, g5, g6⟩ := scanBest_some hscan
      exact ⟨g1, g2, g3, hθ, g5, g6⟩
    · rw [if_neg hθ] at h'
      cases h'

theorem v7_match_none {s : Summary} {fts : List FullText} {used : List Nat}
    (hall : ∀ j, j < fts.length → used.contains j = false →
      scoreV7 s (fts.getD j default) < 50) :
    match_summary_to_fulltext s fts used = none := by
  unfold match_summary_to_fulltext
  rcases hscan : scanBest (scoreV7 s) (fun idx _ => used.contains idx) fts with ⟨ri, rb⟩
  cases ri with
  | none => rfl
  | some k =>
    show (if (50:ℚ) ≤ rb then some (k, rb) else none) = none
    obtain ⟨g1, g2, g3, _, _, _⟩ := scanBest_some hscan
    rw [if_neg]
    rw [g3]
    exact not_le.mpr (hall k g1 g2)

/-- v8 match facts: used-indices set and the 0.25 threshold. -/
theorem v8_match_some {s : Summary} {fts : List FullText} {used : List Nat}
    {i : Nat} {b : ℚ}
    (h : v8_best_match s fts used = some (i, b)) :
    i < fts.length ∧ used.contains i = false ∧
    b = scoreV8 s (fts.getD i default) ∧ 1/4 ≤ b ∧
    (∀ j, j < fts.length → used.contains j = false →
      scoreV8 s (fts.getD j default) ≤ b) ∧
    (∀ j, j < i → used.contains j = false →
      scoreV8 s (fts.getD j default) < b) := by
  unfold v8_best_match at h
  rcases hscan : scanBest (scoreV8 s) (fun idx _ => used.contains idx) fts with ⟨ri, rb⟩
  rw [hscan] at h
  cases ri with
  | none => exact absurd h (by simp)
  | some k =>
    have h' : (if (1/4:ℚ) ≤ rb then some (k, rb) else none) = some (i, b) := h
    by_cases hθ : (1/4:ℚ) ≤ rb
    · rw [if_pos hθ] at h'
      obtain ⟨hki, hrb⟩ : k = i ∧ rb = b := by
        have := Option.some.inj h'
        exact ⟨congrArg Prod.fst this, congrArg Prod.snd this⟩
      subst hki; subst hrb
      obtain ⟨g1, g2, g3, _, g5, g6⟩ := scanBest_some hscan
      exact ⟨g1, g2, g3, hθ, g5, g6⟩
    · rw [if_neg hθ] at h'
      cases h'

theorem v8_match_none {s : Summary} {fts : List FullText} {used : List Nat}
    (hall : ∀ j, j < fts.length → used.contains j = false →
      scoreV8 s (fts.getD j default) < 1/4) :
    v8_best_match s fts used = none := by
  unfold v8_best_match
  rcases hscan : scanBest (scoreV8 s) (fun idx _ => used.contains idx) fts with ⟨ri, rb⟩
  cases ri with
  | none => rfl
  | some k =>
    show (if (1/4:ℚ) ≤ rb then some (k, rb) else none) = none
    obtain ⟨g1, g2, g3, _, _, _⟩ := scanBest_some hscan
    rw [if_neg]
    rw [g3]
    exact not_le.mpr (hall k g1 g2)

/-- Claim C3: in each version the matcher returns the unused passage whose
score is maximal over unused candidates, the first in iteration order on ties
(every earlier unused candidate scores strictly less), and only when that
score reaches the per-version threshold: 40 points in v10, 50 points in v7,
0.25 in v8; when every unused candidate is below the threshold it returns no
match. -/
theorem C3_candidate_selection :
    ((∀ (s : Summary) (fts : List FullText) (i : Nat) (b : ℚ),
      find_best_match s fts = some (i, b) →
      i < fts.length ∧ (fts.getD i default).used = false ∧
      b = scoreV10 s (fts.getD i default) ∧ 40 ≤ b ∧
      (∀ j, j < fts.length → (fts.getD j default).used = false →
        scoreV10 s (fts.getD j default) ≤ b) ∧
      (∀ j, j < i → (fts.getD j default).used = false →
        scoreV10 s (fts.getD j default) < b)) ∧
     (∀ (s : Summary) (fts : List FullText),
      (∀ j, j < fts.length → (fts.getD j default).used = false →
        scoreV10 s (fts.getD j default) < 40) →
      find_best_match s fts = none)) ∧
    ((∀ (s : Summary) (fts : List FullText) (used : List Nat) (i : Nat) (b : ℚ),
      match_summary_to_fulltext s fts used = some (i, b) →
      i < fts.length ∧ used.contains i = false ∧
      b = scoreV7 s (fts.getD i default) ∧ 50 ≤ b ∧
      (∀ j, j < fts.length → used.contains j = false →
        scoreV7 s (fts.getD j default) ≤ b) ∧
      (∀ j, j < i → used.contains j = false →
        scoreV7 s (fts.getD j default) < b)) ∧
     (∀ (s : Summary) (fts : List FullText) (used : List Nat),
      (∀ j, j < fts.length → used.contains j = false →
        scoreV7 s (fts.getD j default) < 50) →
      match_summary_to_fulltext s fts used = none)) ∧
    ((∀ (s : Summary) (fts : List FullText) (used : List Nat) (i : Nat) (b : ℚ),
      v8_best_match s fts used = some (i, b) →
      i < fts.length ∧ used.contains i = false ∧
      b = scoreV8 s (fts.getD i default) ∧ 1/4 ≤ b ∧
      (∀ j, j < fts.length → used.contains j = false →
        scoreV8 s (fts.getD j default) ≤ b) ∧
      (∀ j, j < i → used.contains j = false →
        scoreV8 s (fts.getD j default) < b)) ∧
     (∀ (s : Summary) (fts : List FullText) (used : List Nat),
      (∀ j, j < fts.length → used.contains j = false →
        scoreV8 s (fts.getD j default) < 1/4) →
      v8_best_match s fts used = none)) :=
  ⟨⟨fun _ _ _ _ h => find_best_match_some h, fun _ _ hall => find_best_match_none hall⟩,
   ⟨fun _ _ _ _ _ h => v7_match_some h, fun _ _ _ hall => v7_match_none hall⟩,
   ⟨fun _ _ _ _ _ h => v8_match_some h, fun _ _ _ hall => v8_match_none hall⟩⟩

/-! ## Exclusivity of the greedy matching (claim C1) -/
theorem markUsed_used_self : ∀ (fts : List FullText) (n : Nat), n < fts.length →
    ((markUsed fts n).getD n default).used = true := by
  intro fts
  induction fts with
  | nil => intro n h; simp at h
  | cons ft fts ih =>
    intro n h
    cases n with
    | zero => rfl
    | succ k =>
      show ((ft :: markUsed fts k).getD (k+1) default).used = true
      rw [List.getD_cons_succ]
      exact ih k (by simpa using h)

theorem markUsed_used_mono : ∀ (fts : List FullText) (n k : Nat),
    (fts.getD k default).used = true →
    ((markUsed fts n).getD k default).used = true := by
  intro fts
  induction fts with
  | nil => intro n k h; simpa [markUsed] using h
  | cons ft fts ih =>
    intro n k h
    cases n with
    | zero =>
      cases k with
      | zero => rfl
      | succ k' =>
        show (({ ft with used := true } :: fts).getD (k'+1) default).used = true
        rw [List.getD_cons_succ]
        rw [List.getD_cons_succ] at h
        exact h
    | succ n' =>
      cases k with
      | zero =>
        show ((ft :: markUsed fts n').getD 0 default).used = true
        rw [List.getD_cons_zero]
        rw [List.getD_cons_zero] at h
        exact h
      | succ k' =>
        show ((ft :: markUsed fts n').getD (k'+1) default).used = true
        rw [List.getD_cons_succ]
        rw [List.getD_cons_succ] at h
        exact ih n' k' h

/-- Once a passage is consumed, no later summary is ever matched to it. -/
theorem matchIndices_not_used : ∀ (ss : List Summary) (fts : List FullText) (idx : Nat),
    (fts.getD idx default).used = true → some idx ∉ matchIndices ss fts := by
  intro ss
  induction ss with
  | nil => intro fts idx _ ; simp [matchIndices]
  | cons s ss ih =>
    intro fts idx h
    rcases hf : find_best_match s fts with _ | ⟨i, sc⟩
    · simp only [matchIndices, hf]
      intro hmem
      rcases List.mem_cons.1 hmem with heq | hmem'
      · cases heq
      · exact ih fts idx h hmem'
    · simp only [matchIndices, hf]
      intro hmem
      rcases List.mem_cons.1 hmem with heq | hmem'
      · obtain ⟨_, hunused, _⟩ := find_best_match_some hf
        have : idx = i := Option.some.inj heq
        subst this
        rw [h] at hunused
        cases hunused
      · exact ih (markUsed fts i) idx (markUsed_used_mono fts i idx h) hmem'

theorem contains_false_iff {l : List Nat} {a : Nat} : l.contains a = false ↔ a ∉ l := by
  induction l with
  | nil => simp
  | cons b bs ih =>
    rw [List.contains_cons]
    constructor
    · intro h hmem
      rcases Bool.or_eq_false_iff.1 h with ⟨h1, h2⟩
      rcases List.mem_cons.1 hmem with rfl | hmem'
      · simp at h1
      · exact ih.1 h2 hmem'
    · intro h
      apply Bool.or_eq_false_iff.2
      refine ⟨beq_eq_false_iff_ne.2 fun e => h (e ▸ List.mem_cons_self _ _), ?_⟩
      exact ih.2 (fun hm => h (List.mem_cons_of_mem _ hm))

/-- v8: an index already in `used_indices` is never chosen again. -/
theorem v8_indices_not_used : ∀ (ss : List Summary) (fts : List FullText)
    (used : List Nat) (idx : Nat),
    idx ∈ used → some idx ∉ v8_match_indices ss fts used := by
  intro ss
  induction ss with
  | nil => intro fts used idx _; simp [v8_match_indices]
  | cons s ss ih =>
    intro fts used idx h
    rcases hf : v8_best_match s fts used with _ | ⟨i, sc⟩
    · simp only [v8_match_indices, hf]
      intro hmem
      rcases List.mem_cons.1 hmem with heq | hmem'
      · cases heq
      · exact ih fts used idx h hmem'
    · simp only [v8_match_indices, hf]
      intro hmem
      rcases List.mem_cons.1 hmem with heq | hmem'
      · obtain ⟨_, hfree, _⟩ := v8_match_some hf
        have : idx = i := Option.some.inj heq
        subst this
        exact absurd h (contains_false_iff.1 hfree)
      · exact ih fts (i :: used) idx (List.mem_cons_of_mem _ h) hmem'

/-- Claim C1: greedy exclusive matching — in a v10 `match_all` run, and in a
v8 `match_summaries_to_full_texts` run, no two summaries are matched to the
same passage: the sequence of consumed passage indices has no duplicates. -/
theorem C1_greedy_exclusive_matching :
    (∀ (ss : List Summary) (fts : List FullText),
      ((matchIndices ss fts).filterMap id).Nodup) ∧
    (∀ (ss : List Summary) (fts : List FullText),
      ((v8_match_indices ss fts []).filterMap id).Nodup) := by
  constructor
  · intro ss
    induction ss with
    | nil => intro fts; simp [matchIndices]
    | cons s ss ih =>
      intro fts
      rcases hf : find_best_match s fts with _ | ⟨i, sc⟩
      · simpa only [matchIndices, hf, List.filterMap_cons] using ih fts
      · simp only [matchIndices, hf, List.filterMap_cons]
        refine List.nodup_cons.2 ⟨?_, ih (markUsed fts i)⟩
        intro hmem
        have hsome : some i ∈ matchIndices ss (markUsed fts i) := by
          rcases List.mem_filterMap.1 hmem with ⟨o, ho, hoi⟩
          cases o with
          | none => cases hoi
          | some v =>
            have : v = i := Option.some.inj hoi
            subst this
            exact ho
        obtain ⟨hlen, _, _⟩ := find_best_match_some hf
        exact matchIndices_not_used ss (markUsed fts i) i
          (markUsed_used_self fts i hlen) hsome
  · intro ss
    have main : ∀ (ss : List Summary) (fts : List FullText) (used : List Nat),
        ((v8_match_indices ss fts used).filterMap id).Nodup := by
      intro ss
      induction ss with
      | nil => intro fts used; simp [v8_match_indices]
      | cons s ss ih =>
        intro fts used
        rcases hf : v8_best_match s fts used with _ | ⟨i, sc⟩
        · simpa only [v8_match_indices, hf, List.filterMap_cons] using ih fts used
        · simp only [v8_match_indices, hf, List.filterMap_cons]
          refine List.nodup_cons.2 ⟨?_, ih fts (i :: used)⟩
          intro hmem
          have hsome : some i ∈ v8_match_indices ss fts (i :: used) := by
            rcases List.mem_filterMap.1 hmem with ⟨o, ho, hoi⟩
            cases o with
            | none => cases hoi
            | some v =>
              have : v = i := Option.some.inj hoi
              subst this
              exact ho
          exact v8_indices_not_used ss fts (i :: used) i (List.mem_cons_self _ _) hsome
    intro fts
    exact main ss fts []

/-! ## Shape of the match_all result (claim C9) -/
/-- Claim C9: `match_all` returns one entry per summary, in order, each
carrying its summary; matched entries hold a consumed passage and a positive
(threshold-reaching) score, unmatched entries hold no passage and score 0. -/
theorem C9_match_result_shape : ∀ (ss : List Summary) (fts : List FullText),
    (match_all ss fts).map (fun e => e.summary) = ss ∧
    ∀ e ∈ match_all ss fts,
      (∀ ft, e.full_text = some ft → ft.used = true ∧ 0 < e.score ∧ 40 ≤ e.score) ∧
      (e.full_text = none → e.score = 0) := by
  intro ss
  induction ss with
  | nil =>
    intro fts
    exact ⟨rfl, by simp [match_all]⟩
  | cons s ss ih =>
    intro fts
    rcases hf : find_best_match s fts with _ | ⟨i, sc⟩
    · constructor
      · simp only [match_all, hf, List.map_cons]
        rw [(ih fts).1]
      · intro e hmem
        simp only [match_all, hf] at hmem
        rcases List.mem_cons.1 hmem with rfl | hmem'
        · exact ⟨fun ft hft => Option.noConfusion hft, fun _ => rfl⟩
        · exact (ih fts).2 e hmem'
    · have h40 : 40 ≤ sc := (find_best_match_some hf).2.2.2.1
      constructor
      · simp only [match_all, hf, List.map_cons]
        rw [(ih (markUsed fts i)).1]
      · intro e hmem
        simp only [match_all, hf] at hmem
        rcases List.mem_cons.1 hmem with rfl | hmem'
        · refine ⟨fun ft hft => ?_, fun hnone => by cases hnone⟩
          have : { fts.getD i default with used := true } = ft := Option.some.inj hft
          subst this
          exact ⟨rfl, lt_of_lt_of_le (by norm_num) h40, h40⟩
        · exact (ih (markUsed fts i)).2 e hmem'

theorem scoreV10_keyword_perm {s s' : Summary} (h : KeywordPerm s s') (ft : FullText) :
    scoreV10 s ft = scoreV10 s' ft := by
  obtain ⟨_, _, hverse, hsum, _, hkw⟩ := h
  unfold scoreV10
  rw [hverse, hsum]
  have hlen := hkw.length_eq
  have hfil :=
    (hkw.filter (fun w => decide (w <:+: ft.text_clean.take 600))).length_eq
  congr 1
  congr 1
  by_cases hk : s.keywords = []
  · have hk' : s'.keywords = [] := by
      rw [hk] at hkw
      exact hkw.symm.eq_nil
    rw [hk, hk']
  · have hk' : s'.keywords ≠ [] := fun e => hk ((e ▸ hkw).eq_nil)
    rw [if_pos hk, if_pos hk', hfil, hlen]

theorem find_best_match_keyword_perm {s s' : Summary} (h : KeywordPerm s s')
    (fts : List FullText) : find_best_match s fts = find_best_match s' fts := by
  have hs : scoreV10 s = scoreV10 s' := funext (fun ft => scoreV10_keyword_perm h ft)
  unfold find_best_match
  rw [hs]

/-- Claim C8: matching is deterministic and independent of the iteration
order of the unordered keyword sets: permuting every summary's keyword set
yields exactly the same pairings and scores from `match_all`. -/
theorem C8_keyword_order_independence :
    ∀ (fts : List FullText) (ss ss' : List Summary),
    List.Forall₂ KeywordPerm ss ss' →
    (match_all ss fts).map (fun e => (e.full_text, e.score)) =
      (match_all ss' fts).map (fun e => (e.full_text, e.score)) := by
  intro fts ss ss' h
  induction h generalizing fts with
  | nil => rfl
  | @cons a b ssa ssb hab htail ih =>
    have hf := find_best_match_keyword_perm hab fts
    rcases hfa : find_best_match a fts with _ | ⟨i, sc⟩
    · have hfb : find_best_match b fts = none := by rw [← hf, hfa]
      simp only [match_all, hfa, hfb, List.map_cons]
      rw [ih fts]
    · have hfb : find_best_match b fts = some (i, sc) := by rw [← hf, hfa]
      simp only [match_all, hfa, hfb, List.map_cons]
      rw [ih (markUsed fts i)]

/-- Claim C7: the rendered passage body is truncated with the explicit
ellipsis marker exactly when the cleaned body exceeds the cap (3000
characters in the HTML renderer with marker `"\n\n[...]"`, 2500 in the Word
renderer with marker `" [...]"`); bodies at or under the cap are emitted
unchanged. -/
theorem C7_output_truncation (s : Summary) (c : ℚ) (ft : FullText) :
    (3000 < (clean_html ft.text).length →
      quoteBody { summary := s, full_text := some ft, score := c }
        = (clean_html ft.text).take 3000 ++ "\n\n[...]".data) ∧
    ((clean_html ft.text).length ≤ 3000 →
      quoteBody { summary := s, full_text := some ft, score := c }
        = clean_html ft.text) ∧
    (2500 < (clean_html ft.text).length →
      generate_word_ft_text ft = (clean_html ft.text).take 2500 ++ " [...]".data) ∧
    ((clean_html ft.text).length ≤ 2500 →
      generate_word_ft_text ft = clean_html ft.text) := by
  refine ⟨fun h => ?_, fun h => ?_, fun h => ?_, fun h => ?_⟩
  · simp only [quoteBody]
    rw [if_pos h]
  · simp only [quoteBody]
    rw [if_neg (not_lt.2 h)]
  · simp only [generate_word_ft_text]
    rw [if_pos h]
  · simp only [generate_word_ft_text]
    rw [if_neg (not_lt.2 h)]

/-! ## Unmatched-summary semantics (claim C4) -/
theorem getD_mem {α : Type} [Inhabited α] : ∀ {l : List α} {n : Nat},
    n < l.length → l.getD n default ∈ l := by
  intro l
  induction l with
  | nil => intro n h; simp at h
  | cons a as ih =>
    intro n h
    cases n with
    | zero => exact List.mem_cons_self _ _
    | succ k =>
      rw [List.getD_cons_succ]
      exact List.mem_cons_of_mem _ (ih (by simpa using h))

theorem isInfix_append_left (l : List Char) {x m : List Char} (h : x <:+: m) :
    x <:+: l ++ m := by
  obtain ⟨s, t, rfl⟩ := h
  exact ⟨l ++ s, t, by simp⟩

theorem isInfix_append_right {x m : List Char} (r : List Char) (h : x <:+: m) :
    x <:+: m ++ r := by
  obtain ⟨s, t, rfl⟩ := h
  exact ⟨s, t ++ r, by simp⟩

/-- The score of a passage does not depend on its `used` flag. -/
theorem scoreV10_used (s : Summary) (ft : FullText) (b : Bool) :
    scoreV10 s { ft with used := b } = scoreV10 s ft := rfl

theorem markUsed_mem : ∀ (fts : List FullText) (n : Nat) (ft' : FullText),
    ft' ∈ markUsed fts n → ft' ∈ fts ∨ ∃ ft ∈ fts, ft' = { ft with used := true } := by
  intro fts
  induction fts with
  | nil => intro n ft' h; simp [markUsed] at h
  | cons ft fts ih =>
    intro n ft' h
    cases n with
    | zero =>
      rcases List.mem_cons.1 h with rfl | h'
      · exact Or.inr ⟨ft, List.mem_cons_self _ _, rfl⟩
      · exact Or.inl (List.mem_cons_of_mem _ h')
    | succ k =>
      rcases List.mem_cons.1 h with rfl | h'
      · exact Or.inl (List.mem_cons_self _ _)
      · rcases ih k ft' h' with hmem | ⟨ft0, hft0, rfl⟩
        · exact Or.inl (List.mem_cons_of_mem _ hmem)
        · exact Or.inr ⟨ft0, List.mem_cons_of_mem _ hft0, rfl⟩

/-- The "not found" placeholder occurs in the quote section whenever some
entry has no passage. -/
theorem noMatch_infix_quoteSection : ∀ (matched : List MatchEntry)
    (cur : Option (List Char)) (e : MatchEntry), e ∈ matched →
    e.full_text = none → noMatchHtml <:+: quoteSection cur matched := by
  intro matched
  induction matched with
  | nil => intro cur e he; exact absurd he (List.not_mem_nil e)
  | cons a as ih =>
    intro cur e he hnone
    rcases List.mem_cons.1 he with rfl | he'
    · have hq : quoteBody e = noMatchHtml := by simp only [quoteBody, hnone]
      have h0 : noMatchHtml <:+: quoteEntryHtml e := by
        unfold quoteEntryHtml
        refine isInfix_append_right _ (isInfix_append_left _ ?_)
        rw [hq]
      simp only [quoteSection]
      exact isInfix_append_right _ (isInfix_append_left _ h0)
    · simp only [quoteSection]
      exact isInfix_append_left _ (ih (some a.summary.sefer) e he' hnone)

/-- Claim C4: a summary whose candidates all score under the threshold gets no
match (no exception, the result record simply has no passage and score 0), and
the rendered HTML still contains the explicit "not found" placeholder for it. -/
theorem C4_unmatched_summary_semantics :
    (∀ (s : Summary) (fts : List FullText),
      (∀ ft ∈ fts, scoreV10 s ft < 40) → find_best_match s fts = none) ∧
    (∀ (ss : List Summary) (fts : List FullText) (s : Summary),
      s ∈ ss → (∀ ft ∈ fts, scoreV10 s ft < 40) →
      ∃ e ∈ match_all ss fts, e.summary = s ∧ e.full_text = none ∧ e.score = 0) ∧
    (∀ (matched : List MatchEntry) (e : MatchEntry),
      e ∈ matched → e.full_text = none → noMatchHtml <:+: generate_html matched) := by
  refine ⟨?_, ?_, ?_⟩
  · intro s fts hlow
    exact find_best_match_none (fun j hj _ => hlow _ (getD_mem hj))
  · intro ss
    induction ss with
    | nil => intro fts s hs; exact absurd hs (List.not_mem_nil s)
    | cons s0 ss ih =>
      intro fts s hs hlow
      rcases List.mem_cons.1 hs with rfl | hs'
      · have hnone : find_best_match s fts = none :=
          find_best_match_none (fun j hj _ => hlow _ (getD_mem hj))
        refine ⟨{ summary := s, full_text := none, score := 0 }, ?_, rfl, rfl, rfl⟩
        simp only [match_all, hnone]
        exact List.mem_cons_self _ _
      · rcases hf : find_best_match s0 fts with _ | ⟨i, sc⟩
        · obtain ⟨e, he, h1, h2, h3⟩ := ih fts s hs' hlow
          refine ⟨e, ?_, h1, h2, h3⟩
          simp only [match_all, hf]
          exact List.mem_cons_of_mem _ he
        · have hlow' : ∀ ft ∈ markUsed fts i, scoreV10 s ft < 40 := by
            intro ft hft
            rcases markUsed_mem fts i ft hft with hmem | ⟨ft0, hft0, rfl⟩
            · exact hlow ft hmem
            · rw [scoreV10_used]
              exact hlow ft0 hft0
          obtain ⟨e, he, h1, h2, h3⟩ := ih (markUsed fts i) s hs' hlow'
          refine ⟨e, ?_, h1, h2, h3⟩
          simp only [match_all, hf]
          exact List.mem_cons_of_mem _ he
  · intro matched e he hnone
    unfold generate_html
    exact isInfix_append_right _ (isInfix_append_left _
      (noMatch_infix_quoteSection matched none e he hnone))

theorem ocrLoop_trace (attempts : Nat → Attempt) (page m : Nat) :
    ∀ (rem i : Nat),
    ((ocrLoop attempts page m i rem).2.filter OcrEvent.isRequest).length ≤ rem ∧
    (∀ n, OcrEvent.sleep n ∈ (ocrLoop attempts page m i rem).2 → n = 5) := by
  intro rem
  induction rem with
  | zero => intro i; simp [ocrLoop]
  | succ rem ih =>
    intro i
    rcases ha : attempts i with msg | ⟨status, body, content⟩
    · by_cases hi : i < m - 1
      · obtain ⟨ih1, ih2⟩ := ih (i+1)
        simp only [ocrLoop, ha, if_pos hi]
        constructor
        · simp only [List.filter_cons, OcrEvent.isRequest]
          simpa using ih1
        · intro n hn
          rcases List.mem_cons.1 hn with h | hn'
          · cases h
          · rcases List.mem_cons.1 hn' with h | hn''
            · exact (OcrEvent.sleep.inj h.symm).symm ▸ rfl
            · exact ih2 n hn''
      · simp only [ocrLoop, ha, if_neg hi]
        constructor
        · simp [OcrEvent.isRequest]
        · intro n hn
          rcases List.mem_cons.1 hn with h | hn'
          · cases h
          · simp at hn'
    · by_cases hs : status ≠ 200
      · by_cases hi : i < m - 1
        · obtain ⟨ih1, ih2⟩ := ih (i+1)
          simp only [ocrLoop, ha, if_pos hs, if_pos hi]
          constructor
          · simp only [List.filter_cons, OcrEvent.isRequest]
            simpa using ih1
          · intro n hn
            rcases List.mem_cons.1 hn with h | hn'
            · cases h
            · rcases List.mem_cons.1 hn' with h | hn''
              · exact (OcrEvent.sleep.inj h.symm).symm ▸ rfl
              · exact ih2 n hn''
        · simp only [ocrLoop, ha, if_pos hs, if_neg hi]
          constructor
          · simp [OcrEvent.isRequest]
          · intro n hn
            rcases List.mem_cons.1 hn with h | hn'
            · cases h
            · simp at hn'
      · simp only [ocrLoop, ha, if_neg hs]
        constructor
        · simp [OcrEvent.isRequest]
        · intro n hn
          rcases List.mem_cons.1 hn with h | hn'
          · cases h
          · simp at hn'

theorem ocrLoop_all_fail (attempts : Nat → Attempt) (page m : Nat) :
    ∀ (rem i : Nat),
    (∀ k, i ≤ k → k < i + rem → (attempts k).isFail = true) →
    ∃ msg, (ocrLoop attempts page m i rem).1 = .pageError page msg := by
  intro rem
  induction rem with
  | zero => intro i _; exact ⟨_, rfl⟩
  | succ rem ih =>
    intro i hfail
    rcases ha : attempts i with msg | ⟨status, body, content⟩
    · by_cases hi : i < m - 1
      · obtain ⟨msg', hmsg'⟩ := ih (i+1) (fun k h1 h2 => hfail k (by omega) (by omega))
        simp only [ocrLoop, ha, if_pos hi]
        exact ⟨msg', hmsg'⟩
      · simp only [ocrLoop, ha, if_neg hi]
        exact ⟨msg, rfl⟩
    · have hfa : (attempts i).isFail = true := hfail i le_rfl (by omega)
      rw [ha] at hfa
      have hs : status ≠ 200 := by
        simpa [Attempt.isFail] using hfa
      by_cases hi : i < m - 1
      · obtain ⟨msg', hmsg'⟩ := ih (i+1) (fun k h1 h2 => hfail k (by omega) (by omega))
        simp only [ocrLoop, ha, if_pos hs, if_pos hi]
        exact ⟨msg', hmsg'⟩
      · simp only [ocrLoop, ha, if_pos hs, if_neg hi]
        exact ⟨body, rfl⟩

theorem ocrFlashLoop_trace (attempts : Nat → Attempt) (page m : Nat) :
    ∀ (rem i : Nat),
    ((ocrFlashLoop attempts page m i rem).2.filter OcrEvent.isRequest).length ≤ rem ∧
    (∀ n, OcrEvent.sleep n ∈ (ocrFlashLoop attempts page m i rem).2 → n = 5) := by
  intro rem
  induction rem with
  | zero => intro i; simp [ocrFlashLoop]
  | succ rem ih =>
    intro i
    rcases ha : attempts i with msg | ⟨status, body, content⟩
    · by_cases hi : i < m - 1
      · obtain ⟨ih1, ih2⟩ := ih (i+1)
        simp only [ocrFlashLoop, ha, if_pos hi]
        constructor
        · simp only [List.filter_cons, OcrEvent.isRequest]
          simpa using ih1
        · intro n hn
          rcases List.mem_cons.1 hn with h | hn'
          · cases h
          · rcases List.mem_cons.1 hn' with h | hn''
            · exact (OcrEvent.sleep.inj h.symm).symm ▸ rfl
            · exact ih2 n hn''
      · simp only [ocrFlashLoop, ha, if_neg hi]
        constructor
        · simp [OcrEvent.isRequest]
        · intro n hn
          rcases List.mem_cons.1 hn with h | hn'
          · cases h
          · simp at hn'
    · by_cases hs : status ≠ 200
      · by_cases hi : i < m - 1
        · obtain ⟨ih1, ih2⟩ := ih (i+1)
          simp only [ocrFlashLoop, ha, if_pos hs, if_pos hi]
          constructor
          · simp only [List.filter_cons, OcrEvent.isRequest]
            simpa using ih1
          · intro n hn
            rcases List.mem_cons.1 hn with h | hn'
            · cases h
            · rcases List.mem_cons.1 hn' with h | hn''
              · exact (OcrEvent.sleep.inj h.symm).symm ▸ rfl
              · exact ih2 n hn''
        · simp only [ocrFlashLoop, ha, if_pos hs, if_neg hi]
          constructor
          · simp [OcrEvent.isRequest]
          · intro n hn
            rcases List.mem_cons.1 hn with h | hn'
            · cases h
            · simp at hn'
      · by_cases hshort : (pyStrip content).length < 100 ∧ i < m - 1
        · obtain ⟨ih1, ih2⟩ := ih (i+1)
          simp only [ocrFlashLoop, ha, if_neg hs, if_pos hshort]
          constructor
          · simp only [List.filter_cons, OcrEvent.isRequest]
            simpa using ih1
          · intro n hn
            rcases List.mem_cons.1 hn with h | hn'
            · cases h
            · rcases List.mem_cons.1 hn' with h | hn''
              · exact (OcrEvent.sleep.inj h.symm).symm ▸ rfl
              · exact ih2 n hn''
        · simp only [ocrFlashLoop, ha, if_neg hs, if_neg hshort]
          constructor
          · simp [OcrEvent.isRequest]
          · intro n hn
            rcases List.mem_cons.1 hn with h | hn'
            · cases h
            · simp at hn'

theorem ocrFlashLoop_all_fail (attempts : Nat → Attempt) (page m : Nat) :
    ∀ (rem i : Nat),
    (∀ k, i ≤ k → k < i + rem → (attempts k).isFail = true) →
    ∃ msg, (ocrFlashLoop attempts page m i rem).1 = .pageError page msg := by
  intro rem
  induction rem with
  | zero => intro i _; exact ⟨_, rfl⟩
  | succ rem ih =>
    intro i hfail
    rcases ha : attempts i with msg | ⟨status, body, content⟩
    · by_cases hi : i < m - 1
      · obtain ⟨msg', hmsg'⟩ := ih (i+1) (fun k h1 h2 => hfail k (by omega) (by omega))
        simp only [ocrFlashLoop, ha, if_pos hi]
        exact ⟨msg', hmsg'⟩
      · simp only [ocrFlashLoop, ha, if_neg hi]
        exact ⟨msg, rfl⟩
    · have hfa : (attempts i).isFail = true := hfail i le_rfl (by omega)
      rw [ha] at hfa
      have hs : status ≠ 200 := by
        simpa [Attempt.isFail] using hfa
      by_cases hi : i < m - 1
      · obtain ⟨msg', hmsg'⟩ := ih (i+1) (fun k h1 h2 => hfail k (by omega) (by omega))
        simp only [ocrFlashLoop, ha, if_pos hs, if_pos hi]
        exact ⟨msg', hmsg'⟩
      · simp only [ocrFlashLoop, ha, if_pos hs, if_neg hi]
        exact ⟨body, rfl⟩

/-- Claim C6: for every page both OCR functions make at most 3 HTTP attempts,
sleep exactly 5 seconds between failed attempts, and when every attempt fails
(non-200 status or exception) they return an error record for that page
instead of raising, so the per-page loop in `main` continues with the next
page. -/
theorem C6_bounded_ocr_retry (attempts : Nat → Attempt) (page : Nat) :
    (((ocr_with_gemini attempts page 3).2.filter OcrEvent.isRequest).length ≤ 3 ∧
     (∀ n, OcrEvent.sleep n ∈ (ocr_with_gemini attempts page 3).2 → n = 5) ∧
     ((∀ i, i < 3 → (attempts i).isFail = true) →
      ∃ msg, (ocr_with_gemini attempts page 3).1 = .pageError page msg)) ∧
    (((ocr_with_gemini_flash attempts page 3).2.filter OcrEvent.isRequest).length ≤ 3 ∧
     (∀ n, OcrEvent.sleep n ∈ (ocr_with_gemini_flash attempts page 3).2 → n = 5) ∧
     ((∀ i, i < 3 → (attempts i).isFail = true) →
      ∃ msg, (ocr_with_gemini_flash attempts page 3).1 = .pageError page msg)) := by
  refine ⟨⟨(ocrLoop_trace attempts page 3 3 0).1, (ocrLoop_trace attempts page 3 3 0).2, ?_⟩,
    ⟨(ocrFlashLoop_trace attempts page 3 3 0).1, (ocrFlashLoop_trace attempts page 3 3 0).2, ?_⟩⟩
  · intro hfail
    exact ocrLoop_all_fail attempts page 3 3 0 (fun k _ h2 => hfail k (by omega))
  · intro hfail
    exact ocrFlashLoop_all_fail attempts page 3 3 0 (fun k _ h2 => hfail k (by omega))

theorem alookup_mem : ∀ {l : List (Nat × Nat)} {x k : Nat},
    alookup l x = some k → (x, k) ∈ l := by
  intro l
  induction l with
  | nil => intro x k h; cases h
  | cons p rest ih =>
    intro x k h
    rcases p with ⟨j, k'⟩
    by_cases hj : j = x
    · rw [show alookup ((j, k') :: rest) x
          = if j = x then some k' else alookup rest x from rfl, if_pos hj] at h
      have : k' = k := Option.some.inj h
      subst this; subst hj
      exact List.mem_cons_self _ _
    · rw [show alookup ((j, k') :: rest) x
          = if j = x then some k' else alookup rest x from rfl, if_neg hj] at h
      exact List.mem_cons_of_mem _ (ih h)

theorem prevLen_le {alo blo bhi i : Nat} {j2len : List (Nat × Nat)} {j : Nat}
    (hinv : J2Inv alo blo bhi i j2len) (hj : blo ≤ j) (halo : alo ≤ i) :
    prevLen j2len j + blo ≤ j ∧ prevLen j2len j + alo ≤ i := by
  unfold prevLen
  by_cases h0 : j = 0
  · rw [if_pos h0]; subst h0; omega
  · rw [if_neg h0]
    rcases hl : alookup j2len (j - 1) with _ | k
    · simp only [Option.getD_none]; omega
    · have hmem := alookup_mem hl
      obtain ⟨h1, h2, h3, h4⟩ := hinv _ hmem
      simp only [Option.getD_some]
      omega

theorem flmInner_inv {alo ahi blo bhi i : Nat} {j2len : List (Nat × Nat)}
    (hold : J2Inv alo blo bhi i j2len) (halo : alo ≤ i) (hi : i < ahi) :
    ∀ (js : List Nat) (newj2len : List (Nat × Nat)) (best : Nat × Nat × Nat),
    (∀ j ∈ js, blo ≤ j ∧ j < bhi) →
    J2Inv alo blo bhi (i+1) newj2len →
    BestInv alo ahi blo bhi best →
    J2Inv alo blo bhi (i+1) (flmInner i j2len js (newj2len, best)).1 ∧
    BestInv alo ahi blo bhi (flmInner i j2len js (newj2len, best)).2 := by
  intro js
  induction js with
  | nil => intro newj2len best _ hnew hbest; exact ⟨hnew, hbest⟩
  | cons j js ih =>
    intro newj2len best hja hnew hbest
    obtain ⟨hjb, hjh⟩ := hja j (List.mem_cons_self _ _)
    obtain ⟨hp1, hp2⟩ := prevLen_le hold hjb halo
    rcases best with ⟨bi, bj, bs⟩
    rw [show flmInner i j2len (j :: js) (newj2len, (bi, bj, bs))
        = flmInner i j2len js ((j, prevLen j2len j + 1) :: newj2len,
            if bs < prevLen j2len j + 1
            then (i + 1 - (prevLen j2len j + 1), j + 1 - (prevLen j2len j + 1),
              prevLen j2len j + 1)
            else (bi, bj, bs)) from rfl]
    apply ih
    · exact fun j' hj' => hja j' (List.mem_cons_of_mem _ hj')
    · intro p hp
      rcases List.mem_cons.1 hp with rfl | hp'
      · exact ⟨hjb, hjh, by omega, by omega⟩
      · exact hnew p hp'
    · by_cases hbs : bs < prevLen j2len j + 1
      · rw [if_pos hbs]
        unfold BestInv
        refine ⟨?_, ?_, ?_, ?_⟩
        · show alo ≤ i + 1 - (prevLen j2len j + 1)
          omega
        · show i + 1 - (prevLen j2len j + 1) + (prevLen j2len j + 1) ≤ ahi
          omega
        · show blo ≤ j + 1 - (prevLen j2len j + 1)
          omega
        · show j + 1 - (prevLen j2len j + 1) + (prevLen j2len j + 1) ≤ bhi
          omega
      · rw [if_neg hbs]
        exact hbest

theorem flmOuter_inv {a b : List Char} {alo ahi blo bhi : Nat} :
    ∀ (n i : Nat) (j2len : List (Nat × Nat)) (best : Nat × Nat × Nat),
    alo ≤ i → i + n ≤ ahi →
    J2Inv alo blo bhi i j2len →
    BestInv alo ahi blo bhi best →
    BestInv alo ahi blo bhi (flmOuter a b blo bhi i n j2len best) := by
  intro n
  induction n with
  | zero => intro i j2len best _ _ _ hbest; exact hbest
  | succ n ih =>
    intro i j2len best halo hn hinv hbest
    have hi : i < ahi := by omega
    have hja : ∀ j ∈ (b2j b (a.getD i ' ')).filter
        (fun j => decide (blo ≤ j ∧ j < bhi)), blo ≤ j ∧ j < bhi := by
      intro j hj
      have := List.of_mem_filter hj
      simpa using this
    obtain ⟨hst1, hst2⟩ := flmInner_inv hinv halo hi
      ((b2j b (a.getD i ' ')).filter (fun j => decide (blo ≤ j ∧ j < bhi))) [] best
      hja (fun p hp => absurd hp (List.not_mem_nil p)) hbest
    rw [show flmOuter a b blo bhi i (n+1) j2len best
        = flmOuter a b blo bhi (i+1) n
            (flmInner i j2len ((b2j b (a.getD i ' ')).filter
              (fun j => decide (blo ≤ j ∧ j < bhi))) ([], best)).1
            (flmInner i j2len ((b2j b (a.getD i ' ')).filter
              (fun j => decide (blo ≤ j ∧ j < bhi))) ([], best)).2 from rfl]
    exact ih (i+1) _ _ (by omega) (by omega) hst1 hst2

theorem extendLo_inv {a b : List Char} {alo ahi blo bhi : Nat} :
    ∀ (fuel bi bj bs : Nat), alo ≤ bi → blo ≤ bj → bi + bs ≤ ahi → bj + bs ≤ bhi →
    BestInv alo ahi blo bhi (extendLo a b alo blo fuel bi bj bs) := by
  intro fuel
  induction fuel with
  | zero => intro bi bj bs h1 h2 h3 h4; exact ⟨h1, h3, h2, h4⟩
  | succ fuel ih =>
    intro bi bj bs h1 h2 h3 h4
    rw [show extendLo a b alo blo (fuel+1) bi bj bs
        = if alo < bi ∧ blo < bj ∧ a.getD (bi-1) ' ' = b.getD (bj-1) ' '
          then extendLo a b alo blo fuel (bi-1) (bj-1) (bs+1)
          else (bi, bj, bs) from rfl]
    by_cases hc : alo < bi ∧ blo < bj ∧ a.getD (bi-1) ' ' = b.getD (bj-1) ' '
    · rw [if_pos hc]
      exact ih (bi-1) (bj-1) (bs+1) (by omega) (by omega) (by omega) (by omega)
    · rw [if_neg hc]
      exact ⟨h1, h3, h2, h4⟩

theorem extendHi_inv {a b : List Char} {alo ahi blo bhi : Nat} :
    ∀ (fuel bi bj bs : Nat), alo ≤ bi → blo ≤ bj → bi + bs ≤ ahi → bj + bs ≤ bhi →
    BestInv alo ahi blo bhi (extendHi a b ahi bhi fuel bi bj bs) := by
  intro fuel
  induction fuel with
  | zero => intro bi bj bs h1 h2 h3 h4; exact ⟨h1, h3, h2, h4⟩
  | succ fuel ih =>
    intro bi bj bs h1 h2 h3 h4
    rw [show extendHi a b ahi bhi (fuel+1) bi bj bs
        = if bi + bs < ahi ∧ bj + bs < bhi ∧ a.getD (bi+bs) ' ' = b.getD (bj+bs) ' '
          then extendHi a b ahi bhi fuel bi bj (bs+1)
          else (bi, bj, bs) from rfl]
    by_cases hc : bi + bs < ahi ∧ bj + bs < bhi ∧ a.getD (bi+bs) ' ' = b.getD (bj+bs) ' '
    · rw [if_pos hc]
      exact ih bi bj (bs+1) h1 h2 (by omega) (by omega)
    · rw [if_neg hc]
      exact ⟨h1, h3, h2, h4⟩

theorem flm_bounds {a b : List Char} {alo ahi blo bhi : Nat}
    (h1 : alo ≤ ahi) (h2 : blo ≤ bhi) :
    BestInv alo ahi blo bhi (find_longest_match a b alo ahi blo bhi) := by
  unfold find_longest_match
  obtain ⟨g1, g2, g3, g4⟩ :=
    @flmOuter_inv a b alo ahi blo bhi (ahi - alo) alo [] (alo, blo, 0) le_rfl (by omega)
      (fun p hp => absurd hp (List.not_mem_nil p))
      ⟨le_rfl, show alo + 0 ≤ ahi by omega, le_rfl, show blo + 0 ≤ bhi by omega⟩
  obtain ⟨k1, k2, k3, k4⟩ := @extendLo_inv a b alo ahi blo bhi _ _ _ _ g1 g3 g2 g4
  exact @extendHi_inv a b alo ahi blo bhi _ _ _ _ k1 k3 k2 k4

theorem blocks_sum_le (a b : List Char) : ∀ (fuel alo ahi blo bhi : Nat),
    alo ≤ ahi → blo ≤ bhi →
    ((matchingBlocks a b fuel alo ahi blo bhi).map (fun t => t.2.2)).sum ≤ ahi - alo ∧
    ((matchingBlocks a b fuel alo ahi blo bhi).map (fun t => t.2.2)).sum ≤ bhi - blo := by
  intro fuel
  induction fuel with
  | zero => intro alo ahi blo bhi _ _; simp [matchingBlocks]
  | succ fuel ih =>
    intro alo ahi blo bhi h1 h2
    rw [show matchingBlocks a b (fuel+1) alo ahi blo bhi
        = if (find_longest_match a b alo ahi blo bhi).2.2 = 0 then []
          else matchingBlocks a b fuel alo (find_longest_match a b alo ahi blo bhi).1
              blo (find_longest_match a b alo ahi blo bhi).2.1
            ++ ((find_longest_match a b alo ahi blo bhi).1,
                (find_longest_match a b alo ahi blo bhi).2.1,
                (find_longest_match a b alo ahi blo bhi).2.2)
              :: matchingBlocks a b fuel
                ((find_longest_match a b alo ahi blo bhi).1
                  + (find_longest_match a b alo ahi blo bhi).2.2) ahi
                ((find_longest_match a b alo ahi blo bhi).2.1
                  + (find_longest_match a b alo ahi blo bhi).2.2) bhi
          from rfl]
    by_cases hk : (find_longest_match a b alo ahi blo bhi).2.2 = 0
    · rw [if_pos hk]
      simp
    · rw [if_neg hk]
      obtain ⟨g1, g2, g3, g4⟩ := @flm_bounds a b alo ahi blo bhi h1 h2
      obtain ⟨l1, l2⟩ := ih alo (find_longest_match a b alo ahi blo bhi).1
        blo (find_longest_match a b alo ahi blo bhi).2.1 g1 g3
      obtain ⟨r1, r2⟩ := ih ((find_longest_match a b alo ahi blo bhi).1
          + (find_longest_match a b alo ahi blo bhi).2.2) ahi
        ((find_longest_match a b alo ahi blo bhi).2.1
          + (find_longest_match a b alo ahi blo bhi).2.2) bhi g2 g4
      rw [List.map_append, List.sum_append, List.map_cons, List.sum_cons]
      have hproj : (((find_longest_match a b alo ahi blo bhi).1,
          (find_longest_match a b alo ahi blo bhi).2.1,
          (find_longest_match a b alo ahi blo bhi).2.2) : Nat × Nat × Nat).2.2
          = (find_longest_match a b alo ahi blo bhi).2.2 := rfl
      simp only [hproj]
      constructor <;> omega

theorem smMatches_le (a b : List Char) :
    smMatches a b ≤ a.length ∧ smMatches a b ≤ b.length := by
  obtain ⟨h1, h2⟩ := blocks_sum_le a b (a.length + b.length + 1) 0 a.length 0 b.length
    (Nat.zero_le _) (Nat.zero_le _)
  exact ⟨by simpa using h1, by simpa using h2⟩

theorem ratioValue_nonneg (a b : List Char) : 0 ≤ ratioValue a b := by
  unfold ratioValue
  by_cases h : a.length + b.length = 0
  · rw [if_pos h]
    norm_num
  · rw [if_neg h]
    apply div_nonneg
    · positivity
    · positivity

theorem ratioValue_le_one (a b : List Char) : ratioValue a b ≤ 1 := by
  unfold ratioValue
  by_cases h : a.length + b.length = 0
  · rw [if_pos h]
  · rw [if_neg h]
    obtain ⟨h1, h2⟩ := smMatches_le a b
    have hpos : 0 < a.length + b.length := Nat.pos_of_ne_zero h
    have hq : (0:ℚ) < (a.length : ℚ) + (b.length : ℚ) := by exact_mod_cast hpos
    rw [div_le_one hq]
    have hnat : 2 * smMatches a b ≤ a.length + b.length := by omega
    calc 2 * (smMatches a b : ℚ) = ((2 * smMatches a b : Nat) : ℚ) := by push_cast; ring
      _ ≤ ((a.length + b.length : Nat) : ℚ) := by exact_mod_cast hnat
      _ = (a.length : ℚ) + (b.length : ℚ) := by push_cast; ring

theorem similarity_score_nonneg (x y : List Char) : 0 ≤ similarity_score x y :=
  ratioValue_nonneg _ _

theorem similarity_score_le_one (x y : List Char) : similarity_score x y ≤ 1 :=
  ratioValue_le_one _ _

theorem bestPhraseScore_bounds (openingNorm : List Char) :
    ∀ (phrases : List (List Char)) (best : ℚ), 0 ≤ best → best ≤ 1 →
    0 ≤ bestPhraseScore openingNorm phrases best ∧
    bestPhraseScore openingNorm phrases best ≤ 1 := by
  intro phrases
  induction phrases with
  | nil => intro best h0 h1; exact ⟨h0, h1⟩
  | cons phrase rest ih =>
    intro best h0 h1
    rw [show bestPhraseScore openingNorm (phrase :: rest) best
        = (if openingNorm = normalize_text phrase then 1
           else if openingNorm <:+: normalize_text phrase then
             bestPhraseScore openingNorm rest (max best (9/10))
           else if normalize_text phrase <:+: openingNorm then
             bestPhraseScore openingNorm rest (max best (8/10))
           else if 7/10 < similarity_score openingNorm (normalize_text phrase) then
             bestPhraseScore openingNorm rest
               (max best (similarity_score openingNorm (normalize_text phrase)))
           else bestPhraseScore openingNorm rest best) from rfl]
    by_cases hc1 : openingNorm = normalize_text phrase
    · rw [if_pos hc1]
      norm_num
    · rw [if_neg hc1]
      by_cases hc2 : openingNorm <:+: normalize_text phrase
      · rw [if_pos hc2]
        exact ih _ (le_max_of_le_left h0) (max_le h1 (by norm_num))
      · rw [if_neg hc2]
        by_cases hc3 : normalize_text phrase <:+: openingNorm
        · rw [if_pos hc3]
          exact ih _ (le_max_of_le_left h0) (max_le h1 (by norm_num))
        · rw [if_neg hc3]
          by_cases hc4 : 7/10 < similarity_score openingNorm (normalize_text phrase)
          · rw [if_pos hc4]
            exact ih _ (le_max_of_le_left h0)
              (max_le h1 (similarity_score_le_one _ _))
          · rw [if_neg hc4]
            exact ih _ h0 h1

theorem cex5_sim : similarity_score cex5Sec.author cex5S.author = 1 := by
  show similarity_score "אבגד".data "אבגד".data = 1
  unfold similarity_score
  have hn : normalize_text "אבגד".data = "אבגד".data := by decide
  rw [hn]
  unfold ratioValue
  rw [if_neg (by decide)]
  have hm : smMatches "אבגד".data "אבגד".data = 4 := by decide
  have hl : "אבגד".data.length = 4 := by decide
  rw [hm, hl]
  norm_num

theorem cex5_phrase : bestPhraseScore (normalize_text cex5S.opening_words)
    cex5Sec.opening_phrases 0 = 1 := by
  show bestPhraseScore (normalize_text "שלום עליכם".data) ["שלום עליכם".data] 0 = 1
  simp only [bestPhraseScore]
  simp

theorem cex5_mapScore : mapScore cex5S cex5Sec 1 = 23/20 := by
  simp only [mapScore]
  rw [cex5_phrase]
  rw [if_pos (by decide), if_pos (by decide), if_pos (by decide)]
  norm_num

theorem cex5_map : mapSummaryToContent cex5S [cex5Sec] = some (cex5Sec, 23/20) := by
  unfold mapSummaryToContent
  simp only [List.map_cons, List.map_nil, List.filter_cons, List.filter_nil]
  rw [cex5_sim]
  rw [show (decide ((7:ℚ)/10 < (cex5Sec, (1:ℚ)).2)) = true from by
    rw [decide_eq_true_eq]; norm_num]
  simp only [if_true]
  rw [if_neg (by simp)]
  simp only [List.foldl_cons, List.foldl_nil]
  rw [show mapScore cex5S (cex5Sec, (1:ℚ)).1 (cex5Sec, (1:ℚ)).2 = 23/20 from cex5_mapScore]
  rw [if_pos (by norm_num)]
  show (if (1:ℚ)/4 < 23/20 then some (cex5Sec, (23:ℚ)/20) else none) = some (cex5Sec, 23/20)
  rw [if_pos (by norm_num)]

/-- Claim C5 counterexample: on this candidate pair every signal is maximal
(exact opening-phrase match, containment, page distance 0, identical author)
and the computed confidence score is 23/20 = 1.15, outside [0, 1]. -/
theorem C5_counterexample :
    mapScore cex5S cex5Sec (similarity_score cex5Sec.author cex5S.author) = 23/20 ∧
    mapSummaryToContent cex5S [cex5Sec] = some (cex5Sec, 23/20) ∧
    ¬((23:ℚ)/20 ≤ 1) := by
  have h1 : mapScore cex5S cex5Sec (similarity_score cex5Sec.author cex5S.author)
      = 23/20 := by
    rw [cex5_sim]
    exact cex5_mapScore
  exact ⟨h1, cex5_map, by norm_num⟩

/-- Claim C5 (amended): the candidate confidence score of
`_map_summaries_to_content` lies in [0, 23/20] — the four signal weights sum
to 1.15, not 1. -/
theorem C5_amended_score_range (s : PSummary) (sec : ContentSection) :
    0 ≤ mapScore s sec (similarity_score sec.author s.author) ∧
    mapScore s sec (similarity_score sec.author s.author) ≤ 23/20 := by
  have hsim0 : 0 ≤ similarity_score sec.author s.author := similarity_score_nonneg _ _
  have hsim1 : similarity_score sec.author s.author ≤ 1 := similarity_score_le_one _ _
  obtain ⟨hp0, hp1⟩ := bestPhraseScore_bounds (normalize_text s.opening_words)
    sec.opening_phrases 0 le_rfl (by norm_num)
  simp only [mapScore]
  constructor
  · split_ifs <;> linarith [hp0, hp1, hsim0, hsim1]
  · split_ifs <;> linarith [hp0, hp1, hsim0, hsim1]

/-- Claim C2 counterexample: v10's `find_best_match` returns a passage whose
sefer differs from the summary's (the verse match alone scores 100 ≥ 40). -/
theorem C2_counterexample :
    c2S.sefer ≠ c2F.sefer ∧ find_best_match c2S [c2F] = some (0, 100) := by
  constructor
  · decide
  · have h1 : scoreV10 c2S c2F = 100 := by
      simp only [scoreV10]
      rw [if_pos (by decide), if_neg (by decide), if_neg (by decide)]
      norm_num
    simp only [find_best_match, scanBest, scanBestGo]
    rw [if_neg (by decide)]
    rw [h1]
    norm_num

theorem mapFoldBest_mem (summary : PSummary) :
    ∀ (l : List (ContentSection × ℚ)) (acc : Option ContentSection × ℚ)
      (sec : ContentSection) (sc : ℚ),
    l.foldl (fun acc p => if acc.2 < mapScore summary p.1 p.2
      then (some p.1, mapScore summary p.1 p.2) else acc) acc = (some sec, sc) →
    (∃ p ∈ l, p.1 = sec) ∨ acc.1 = some sec := by
  intro l
  induction l with
  | nil =>
    intro acc sec sc h
    right
    rw [List.foldl_nil] at h
    rw [h]
  | cons p ps ih =>
    intro acc sec sc h
    rw [List.foldl_cons] at h
    rcases ih _ sec sc h with ⟨q, hq, hq1⟩ | hacc
    · exact Or.inl ⟨q, List.mem_cons_of_mem _ hq, hq1⟩
    · by_cases hc : acc.2 < mapScore summary p.1 p.2
      · rw [if_pos hc] at hacc
        exact Or.inl ⟨p, List.mem_cons_self _ _, Option.some.inj hacc⟩
      · rw [if_neg hc] at hacc
        exact Or.inr hacc

/-- Claim C2 (amended): the same-book restriction holds only in
parse_summaries_to_content (candidates restricted to author similarity above
0.7); v10's matcher ignores the sefer fields entirely, so a summary can be
paired with a passage of a different book. -/
theorem C2_amended_book_restriction :
    (∀ (s : Summary) (ft : FullText) (x y : List Char),
      scoreV10 { s with sefer := x } { ft with sefer := y } = scoreV10 s ft) ∧
    (∀ (s : Summary) (fts : List FullText) (x : List Char),
      find_best_match { s with sefer := x } fts = find_best_match s fts) ∧
    (∀ (s : PSummary) (sections : List ContentSection) (sec : ContentSection) (c : ℚ),
      mapSummaryToContent s sections = some (sec, c) →
      7/10 < similarity_score sec.author s.author) := by
  refine ⟨fun _ _ _ _ => rfl, fun _ _ _ => rfl, ?_⟩
  intro s sections sec c h
  unfold mapSummaryToContent at h
  by_cases hnil : (sections.map
      (fun sec => (sec, similarity_score sec.author s.author))).filter
      (fun p => 7/10 < p.2) = []
  · rw [if_pos hnil] at h
    cases h
  · rw [if_neg hnil] at h
    rcases hfold : ((sections.map
        (fun sec => (sec, similarity_score sec.author s.author))).filter
        (fun p => 7/10 < p.2)).foldl
        (fun (acc : Option ContentSection × ℚ) p =>
          if acc.2 < mapScore s p.1 p.2 then (some p.1, mapScore s p.1 p.2)
          else acc) (none, 0) with ⟨ri, rb⟩
    rw [hfold] at h
    cases ri with
    | none => exact absurd h (by simp)
    | some sec' =>
      have h' : (if (1:ℚ)/4 < rb then some (sec', rb) else none) = some (sec, c) := h
      by_cases hθ : (1:ℚ)/4 < rb
      · rw [if_pos hθ] at h'
        have hsec : sec' = sec := congrArg Prod.fst (Option.some.inj h')
        subst hsec
        rcases mapFoldBest_mem s _ (none, 0) sec' rb hfold with ⟨p, hp, hp1⟩ | habs
        · have hfilt := List.of_mem_filter hp
          have hmem := List.mem_of_mem_filter hp
          rcases List.mem_map.1 hmem with ⟨sec0, _, hpe⟩
          rw [← hpe] at hfilt hp1
          simp only [decide_eq_true_eq] at hfilt
          rw [show ((sec0, similarity_score sec0.author s.author).1 : ContentSection)
              = sec0 from rfl] at hp1
          subst hp1
          simpa using hfilt
        · cases habs
      · rw [if_neg hθ] at h'
        cases h'

/-! ## Witness material -/
theorem mem_of_getLast? : ∀ {l : List Char} {c : Char}, l.getLast? = some c → c ∈ l := by
  intro l
  induction l with
  | nil => intro c h; cases h
  | cons d ds ih =>
    intro c h
    cases ds with
    | nil =>
      have : d = c := Option.some.inj h
      subst this
      exact List.mem_cons_self _ _
    | cons e es =>
      rw [List.getLast?_cons_cons] at h
      exact List.mem_cons_of_mem _ (ih h)

theorem mem_of_head? : ∀ {l : List Char} {c : Char}, l.head? = some c → c ∈ l := by
  intro l
  cases l with
  | nil => intro c h; cases h
  | cons d ds =>
    intro c h
    have : d = c := Option.some.inj h
    subst this
    exact List.mem_cons_self _ _

theorem pyStrip_id {l : List Char} (h : ∀ c ∈ l, pyIsSpace c = false) :
    pyStrip l = l := by
  unfold pyStrip
  rw [dropWhile_eq_self (fun c hc => h c (mem_of_head? hc))]
  exact stripEnd_eq_self (fun c hc => h c (mem_of_getLast? hc))

theorem stripTags_id : ∀ {l : List Char}, (∀ c ∈ l, ¬ c = '<') → stripTags l = l := by
  intro l
  induction l with
  | nil => intro _; rw [stripTags]
  | cons c cs ih =>
    intro h
    rw [stripTags]
    rw [if_neg (fun hx => h c (List.mem_cons_self _ _) hx.1)]
    rw [ih (fun d hd => h d (List.mem_cons_of_mem _ hd))]

theorem squeezeNewlines_id : ∀ {l : List Char}, (∀ c ∈ l, ¬ c = '\n') →
    squeezeNewlines l = l := by
  intro l
  induction l with
  | nil => intro _; rw [squeezeNewlines]
  | cons c cs ih =>
    intro h
    rw [squeezeNewlines]
    rw [if_neg (h c (List.mem_cons_self _ _))]
    rw [ih (fun d hd => h d (List.mem_cons_of_mem _ hd))]

theorem c7Long_clean : clean_html c7Long.text = List.replicate 3001 'א' := by
  show clean_html (List.replicate 3001 'א') = List.replicate 3001 'א'
  have hrep : ∀ c ∈ List.replicate 3001 'א', c = 'א' :=
    fun c hc => List.eq_of_mem_replicate hc
  unfold clean_html
  rw [stripTags_id (fun c hc => by rw [hrep c hc]; decide)]
  rw [squeezeNewlines_id (fun c hc => by rw [hrep c hc]; decide)]
  exact pyStrip_id (fun c hc => by rw [hrep c hc]; decide)

/-- Witness for C2: the author restriction fires on a concrete matched pair,
and a concrete sefer change leaves v10 selection unchanged. -/
theorem C2_witness :
    (7:ℚ)/10 < similarity_score cex5Sec.author cex5S.author ∧
    find_best_match { c2S with sefer := "אחרת".data } [c2F] = find_best_match c2S [c2F] :=
  ⟨C2_amended_book_restriction.2.2 cex5S [cex5Sec] cex5Sec (23/20) cex5_map,
   C2_amended_book_restriction.2.1 c2S [c2F] "אחרת".data⟩

/-- Witness for C3: a concrete match reaching the v10 threshold, and the three
matchers returning nothing on an empty candidate list. -/
theorem C3_witness :
    (40:ℚ) ≤ 100 ∧ find_best_match c2S [] = none ∧
    match_summary_to_fulltext c2S [] [] = none ∧
    v8_best_match c2S [] [] = none := by
  refine ⟨(C3_candidate_selection.1.1 c2S [c2F] 0 100 ?_).2.2.2.1,
    C3_candidate_selection.1.2 c2S [] (fun j hj _ => absurd hj (by simp)),
    C3_candidate_selection.2.1.2 c2S [] [] (fun j hj _ => absurd hj (by simp)),
    C3_candidate_selection.2.2.2 c2S [] [] (fun j hj _ => absurd hj (by simp))⟩
  have h1 : scoreV10 c2S c2F = 100 := by
    simp only [scoreV10]
    rw [if_pos (by decide), if_neg (by decide), if_neg (by decide)]
    norm_num
  simp only [find_best_match, scanBest, scanBestGo]
  rw [if_neg (by decide)]
  rw [h1]
  norm_num

/-- Witness for C4: a summary with no candidates is reported unmatched and the
rendered page carries the placeholder. -/
theorem C4_witness :
    find_best_match c2S [] = none ∧
    (∃ e ∈ match_all [c2S] ([] : List FullText),
      e.summary = c2S ∧ e.full_text = none ∧ e.score = 0) ∧
    noMatchHtml <:+:
      generate_html [{ summary := c2S, full_text := none, score := 0 }] :=
  ⟨C4_unmatched_summary_semantics.1 c2S [] (fun ft hft => absurd hft (by simp)),
   C4_unmatched_summary_semantics.2.1 [c2S] [] c2S (by simp)
     (fun ft hft => absurd hft (by simp)),
   C4_unmatched_summary_semantics.2.2 _ _ (List.mem_cons_self _ _) rfl⟩

/-- Witness for C6: with every attempt raising, both OCR functions return an
error record for the page. -/
theorem C6_witness :
    (∃ msg, (ocr_with_gemini (fun _ => Attempt.exc "boom".data) 7 3).1
      = OcrOutcome.pageError 7 msg) ∧
    (∃ msg, (ocr_with_gemini_flash (fun _ => Attempt.exc "boom".data) 7 3).1
      = OcrOutcome.pageError 7 msg) :=
  ⟨(C6_bounded_ocr_retry (fun _ => Attempt.exc "boom".data) 7).1.2.2 (fun _ _ => rfl),
   (C6_bounded_ocr_retry (fun _ => Attempt.exc "boom".data) 7).2.2.2 (fun _ _ => rfl)⟩

/-- Witness for C7: a short passage is emitted unchanged and a 3001-character
passage is truncated with the marker, in both renderers. -/
theorem C7_witness :
    quoteBody { summary := c2S, full_text := some c2F, score := 0 }
      = clean_html c2F.text ∧
    generate_word_ft_text c2F = clean_html c2F.text ∧
    quoteBody { summary := c2S, full_text := some c7Long, score := 0 }
      = (clean_html c7Long.text).take 3000 ++ "\n\n[...]".data ∧
    generate_word_ft_text c7Long
      = (clean_html c7Long.text).take 2500 ++ " [...]".data := by
  have hc2F : clean_html c2F.text = [] := by
    show clean_html [] = []
    unfold clean_html
    rw [stripTags_id (fun c hc => absurd hc (List.not_mem_nil c))]
    rw [squeezeNewlines_id (fun c hc => absurd hc (List.not_mem_nil c))]
    exact pyStrip_id (fun c hc => absurd hc (List.not_mem_nil c))
  have hlen3 : 3000 < (clean_html c7Long.text).length := by
    rw [c7Long_clean, List.length_replicate]
    norm_num
  have hlen2 : 2500 < (clean_html c7Long.text).length := by
    rw [c7Long_clean, List.length_replicate]
    norm_num
  exact ⟨(C7_output_truncation c2S 0 c2F).2.1 (by rw [hc2F]; decide),
    (C7_output_truncation c2S 0 c2F).2.2.2 (by rw [hc2F]; decide),
    (C7_output_truncation c2S 0 c7Long).1 hlen3,
    (C7_output_truncation c2S 0 c7Long).2.2.1 hlen2⟩

/-- Witness for C8: swapping the two keywords of a summary leaves the
pairings and scores of `match_all` unchanged. -/
theorem C8_witness :
    (match_all [c8S] [c2F]).map (fun e => (e.full_text, e.score))
      = (match_all [c8Sp] [c2F]).map (fun e => (e.full_text, e.score)) := by
  apply C8_keyword_order_independence
  refine List.Forall₂.cons ⟨rfl, rfl, rfl, rfl, rfl, ?_⟩ List.Forall₂.nil
  decide

/-- Witness for C9: the concrete one-summary run keeps its summary and
reports score 0 for the unmatched entry. -/
theorem C9_witness :
    (match_all [c2S] ([] : List FullText)).map (fun e => e.summary) = [c2S] ∧
    ({ summary := c2S, full_text := none, score := 0 } : MatchEntry).score = 0 := by
  refine ⟨(C9_match_result_shape [c2S] []).1, ?_⟩
  exact ((C9_match_result_shape [c2S] []).2 _ (List.mem_cons_self _ _)).2 rfl

/-- Witness for C10: idempotence and the character guarantees evaluated on a
concrete string with nikud, punctuation and doubled spaces. -/
theorem C10_witness :
    normalize_text (normalize_text "אָב.  גד".data) = normalize_text "אָב.  גד".data ∧
    isNikud 'א' = false ∧
    NoTwoWs (normalize_text "אָב.  גד".data) :=
  ⟨(C10_normalize_text_idempotent "אָב.  גד".data).1,
   ((C10_normalize_text_idempotent "אָב.  גד".data).2.1 'א' (by decide)).1,
   (C10_normalize_text_idempotent "אָב.  גד".data).2.2⟩
